import Mathlib

/-!
Verification development for the obsidian-ast-generator markdown parsing and
publishing engine.  The definitions below are a shallow embedding, translated
from the TypeScript source:

* `extractFrontmatter` and `extractSettingsFooter` embed the two scanners in
  src/parsers/parseMarkdown.ts (lines 18-42 and 44-68).
* The wikilink / embed-wikilink / internal-markdown-link mdast handlers embed
  `getMdastExtensions` (src/parsers/parseMarkdown.ts lines 80-176).
* The settings/frontmatter merge embeds the loop in `parseMarkdown`
  (src/parsers/parseMarkdown.ts lines 178-206).
* The aggregate-index operations embed `_generateAst`, `saveAsDraft` and
  `saveAsPublished` in src/Settings.ts (lines 1677-1999).

JavaScript strings are modelled as `List Char`; `s[i]` on a JS string is
modelled by `getC`, which yields `none` for an out-of-range or negative index
(JS yields `undefined` there).  Fallible JS code (thrown `TypeError`s and
`URIError`s) is modelled with `Except`.
-/

set_option linter.unusedVariables false

/-! ## JavaScript string primitives -/

/-- The backtick character, written via its code point. -/
def tickChar : Char := Char.ofNat 96

/-- Character access `md[i]` on a JS string: `none` models `undefined`
(negative or out-of-range index). -/
def getC (md : List Char) (i : Int) : Option Char :=
  if i < 0 then none else md[i.toNat]?

/-- Clamp an index the way `String.prototype.slice` does: negative indices
count from the end, indices past the end clamp to the length. -/
def jsIdx (len : Nat) (i : Int) : Nat :=
  if i < 0 then (len + i).toNat else min i.toNat len

/-- `md.slice(s, e)` on a JS string. -/
def jsSlice (md : List Char) (s e : Int) : List Char :=
  let a := jsIdx md.length s
  let b := jsIdx md.length e
  (md.drop a).take (b - a)

/-- White-space set removed by `String.prototype.trim` (ASCII part; the
Unicode white-space code points never occur in the inputs considered here). -/
def jsWs (c : Char) : Bool :=
  c == ' ' || c == '\t' || c == '\n' || c == '\r' || c == Char.ofNat 11 || c == Char.ofNat 12

/-- `md.trim()` on a JS string. -/
def jsTrim (md : List Char) : List Char :=
  ((md.dropWhile jsWs).reverse.dropWhile jsWs).reverse

/-- The regex test `/[\r\n]/.test(c)` applied to a single character access:
`undefined` is coerced to the string "undefined", which contains no line
boundary, hence `false`. -/
def lineBoundaryOpt (c : Option Char) : Bool :=
  match c with
  | some c => c == '\n' || c == '\r'
  | none => false

/-! ## Header scanner: `extractFrontmatter` (src/parsers/parseMarkdown.ts 18-42) -/

/-- Result of a scanner: either no block (the function returned `{}`), the
loop fell off the end (the function returned `undefined`), or a block whose
content slice is handed to the structured parser (`parseYaml` resp.
`JSON.parse` applied to the trimmed slice). -/
inductive ScanOut where
  | empty
  | undef
  | parsed (content : List Char)
deriving DecidableEq, Repr

/-- The closing-triad test of `extractFrontmatter`:
`md[i] === '-' && /[\r\n]/.test(md[i - 1]) && md[i + 1] === '-' && md[i + 2] === '-'`. -/
def closePat (md : List Char) (i : Nat) : Bool :=
  getC md i == some '-' && lineBoundaryOpt (getC md ((i : Int) - 1))
    && getC md ((i : Int) + 1) == some '-' && getC md ((i : Int) + 2) == some '-'

/-- The `for` loop of `extractFrontmatter`, with `fuel = md.length - i`
(number of loop iterations left).  State: current index `i`, `openDashCount`,
`frontmatterStart` (`-1` until set). -/
def headerLoop (md : List Char) : Nat → Nat → Nat → Int → ScanOut
  | 0, _, _, _ => .empty
  | fuel + 1, i, openDashCount, fs =>
    if openDashCount < 3 then
      if getC md i == some '-' then
        headerLoop md fuel (i + 1) (openDashCount + 1) fs
      else
        ScanOut.empty
    else
      let fs' : Int := if fs < 0 then (i : Int) else fs
      if closePat md i then
        ScanOut.parsed (jsSlice md fs' ((i : Int) - 1))
      else
        headerLoop md fuel (i + 1) openDashCount fs'

/-- `extractFrontmatter(md)`: the scan itself.  `.parsed c` means the source
returns `parseYaml(c.trim())`; `.empty` means it returns `{}`. -/
def extractFrontmatter (md : List Char) : ScanOut :=
  headerLoop md md.length 0 0 (-1)

/-! ## Footer scanner: `extractSettingsFooter` (src/parsers/parseMarkdown.ts 44-68) -/

/-- The regex test `/[`%\n\r]/.test(c)` of the footer scanner (backtick,
percent, LF, CR). -/
def footerAllowedOpt (c : Option Char) : Bool :=
  match c with
  | some c => c == tickChar || c == '%' || c == '\n' || c == '\r'
  | none => false

/-- The opening-fence test of `extractSettingsFooter`:
three backticks at `i-2..i` with a line boundary at `i-3`. -/
def openFencePat (md : List Char) (i : Nat) : Bool :=
  getC md i == some tickChar && getC md ((i : Int) - 1) == some tickChar
    && getC md ((i : Int) - 2) == some tickChar && lineBoundaryOpt (getC md ((i : Int) - 3))

/-- The backward `for` loop of `extractSettingsFooter`; the current index is
`fuel - 1` (the loop runs from `md.length - 1` down to `0`).  State:
`hasEntered`, `openTickCount`, `settingsEnd`.  Falling off the end returns
JS `undefined` (`.undef`). -/
def footerLoop (md : List Char) : Nat → Bool → Nat → Int → ScanOut
  | 0, _, _, _ => .undef
  | fuel + 1, hasEntered, openTickCount, settingsEnd =>
    let i : Nat := fuel
    if !hasEntered && footerAllowedOpt (getC md i) then
      if getC md i == some tickChar then
        if openTickCount + 1 == 3 then
          footerLoop md fuel true (openTickCount + 1) ((i : Int) - 1)
        else
          footerLoop md fuel false (openTickCount + 1) settingsEnd
      else
        footerLoop md fuel false openTickCount settingsEnd
    else if !hasEntered then
      ScanOut.empty
    else
      if openFencePat md i then
        ScanOut.parsed (jsSlice md ((i : Int) + 1) settingsEnd)
      else
        footerLoop md fuel hasEntered openTickCount settingsEnd

/-- `extractSettingsFooter(md)`: the scan itself.  `.parsed c` means the
source returns `JSON.parse(c.trim())`; `.empty` means it returns `{}`;
`.undef` means the loop ran out and the function returned `undefined`. -/
def extractSettingsFooter (md : List Char) : ScanOut :=
  footerLoop md md.length false 0 (-1)

/-! ## Link resolution handlers: `getMdastExtensions` (src/parsers/parseMarkdown.ts 80-176) -/

/-- Errors thrown by the JS runtime inside the handlers: `TypeError` from a
property access on `null`, `URIError` from `decodeURIComponent` on a
malformed escape sequence. -/
inductive JsError where
  | typeError
  | uriError
deriving DecidableEq, Repr

/-- Stat snapshot of a vault file (`TFile.stat`). -/
structure FileStat where
  mtime : Int
  size : Int
deriving DecidableEq, Repr

/-- A resolved vault file as the handlers use it
(`metadataCache.getFirstLinkpathDest` result). -/
structure VFile where
  path : List Char
  basename : List Char
  stat : FileStat
deriving DecidableEq, Repr

/-- The resolved-link payload attached to link-bearing nodes
(`FileAccessor` in src/parsers/helpers/parser).  Fields that a given handler
does not set are `none`, matching the object literals in the source. -/
structure FileAccessor where
  target : List Char
  isEmbed : Bool
  stats : Option FileStat := none
  basePath : Option (List Char) := none
  slug : Option (List Char) := none
deriving DecidableEq, Repr

/-- Modelled from the spec: `getNormalizedPath` (src/helpers/renderMarkdown,
not included under src/).  Normalization strips an optional `#subsection` or
`|display` suffix before resolution; `root` is the part of the raw target
before the first `#` or `|`. -/
def getNormalizedRoot (text : List Char) : List Char :=
  text.takeWhile (fun c => !(c == '#') && !(c == '|'))

/-- Modelled from the spec: `kebabize` (src/helpers/util, not included under
src/), described in the spec as "kebab-case transform — lowercasing,
collapsing non-alphanumeric runs to single hyphens, trimming leading/trailing
hyphens". -/
def kebabize (s : List Char) : List Char :=
  let collapsed := (s.map Char.toLower).foldr
    (fun c acc =>
      if c.isAlphanum then c :: acc
      else if acc.head? == some '-' then acc
      else '-' :: acc) []
  (((collapsed.dropWhile (fun c => c == '-')).reverse.dropWhile (fun c => c == '-')).reverse)

/-- Hexadecimal digit value, as used by `decodeURIComponent`. -/
def hexVal (c : Char) : Option Nat :=
  if '0' ≤ c && c ≤ '9' then some (c.toNat - 48)
  else if 'A' ≤ c && c ≤ 'F' then some (c.toNat - 65 + 10)
  else if 'a' ≤ c && c ≤ 'f' then some (c.toNat - 97 + 10)
  else none

/-- One element of the percent-scan: either a literal character or a decoded
`%XY` byte. -/
inductive PctTok where
  | raw (c : Char)
  | byte (b : Nat)
deriving DecidableEq, Repr

/-- First phase of `decodeURIComponent`: replace each `%XY` escape by its
byte; a `%` not followed by two hex digits throws `URIError`. -/
def pctScan : List Char → Except JsError (List PctTok)
  | [] => .ok []
  | '%' :: h :: l :: rest =>
    match hexVal h, hexVal l with
    | some hv, some lv =>
      match pctScan rest with
      | .ok toks => .ok (.byte (hv * 16 + lv) :: toks)
      | .error e => .error e
    | _, _ => .error .uriError
  | '%' :: _ => .error .uriError
  | c :: rest =>
    match pctScan rest with
    | .ok toks => .ok (.raw c :: toks)
    | .error e => .error e

/-- A UTF-8 continuation byte (`0x80..0xBF`). -/
def isContByte (b : Nat) : Bool := 0x80 ≤ b && b < 0xC0

/-- Emit a decoded code point in front of the rest of the decode. -/
def consOut (n : Nat) : Except JsError (List Char) → Except JsError (List Char)
  | .ok cs => .ok (Char.ofNat n :: cs)
  | .error e => .error e

/-- Second phase of `decodeURIComponent`: assemble UTF-8 byte sequences into
code points; invalid sequences (bad lead byte, truncation, overlong form,
surrogate, out of range) throw `URIError`. -/
def utf8Assemble : List PctTok → Except JsError (List Char)
  | [] => .ok []
  | .raw c :: rest =>
    match utf8Assemble rest with
    | .ok cs => .ok (c :: cs)
    | .error e => .error e
  | .byte b :: rest =>
    if b < 0x80 then consOut b (utf8Assemble rest)
    else if b < 0xC0 then .error .uriError
    else if b < 0xE0 then
      match rest with
      | .byte b2 :: rest2 =>
        if isContByte b2 then
          let cp := (b - 0xC0) * 64 + (b2 - 0x80)
          if cp < 0x80 then .error .uriError else consOut cp (utf8Assemble rest2)
        else .error .uriError
      | _ => .error .uriError
    else if b < 0xF0 then
      match rest with
      | .byte b2 :: .byte b3 :: rest3 =>
        if isContByte b2 && isContByte b3 then
          let cp := ((b - 0xE0) * 64 + (b2 - 0x80)) * 64 + (b3 - 0x80)
          if cp < 0x800 || (0xD800 ≤ cp && cp ≤ 0xDFFF) then .error .uriError
          else consOut cp (utf8Assemble rest3)
        else .error .uriError
      | _ => .error .uriError
    else if b < 0xF5 then
      match rest with
      | .byte b2 :: .byte b3 :: .byte b4 :: rest4 =>
        if isContByte b2 && isContByte b3 && isContByte b4 then
          let cp := (((b - 0xF0) * 64 + (b2 - 0x80)) * 64 + (b3 - 0x80)) * 64 + (b4 - 0x80)
          if cp < 0x10000 || 0x10FFFF < cp then .error .uriError
          else consOut cp (utf8Assemble rest4)
        else .error .uriError
      | _ => .error .uriError
    else .error .uriError

/-- `decodeURIComponent(u)`: percent-decode, then UTF-8-assemble. -/
def decodeURIComponentModel (u : List Char) : Except JsError (List Char) :=
  match pctScan u with
  | .ok toks => utf8Assemble toks
  | .error e => .error e

/-- `baseFolder ? baseFolder.length + 1 : 0` — the empty string is falsy in
JS, and `getSetting('base-folder')` may be undefined (`none`). -/
def baseFolderLen (baseFolder : Option (List Char)) : Nat :=
  match baseFolder with
  | some b => if b.isEmpty then 0 else b.length + 1
  | none => 0

/-- The `embedWikilink` mdast handler (src/parsers/parseMarkdown.ts 95-114):
`resolve` stands for `metadataCache.getFirstLinkpathDest` at the current
document.  With `text` empty there is no node mutation (`.ok none`).  When the
target does not resolve, the source evaluates `stats: file?.stat` (tolerant)
but then `basePath: file.path.substring(...)` on `null`, a thrown `TypeError`. -/
def embedWikilinkAttach (resolve : List Char → Option VFile)
    (baseFolder : Option (List Char)) (text : List Char) :
    Except JsError (Option FileAccessor) :=
  if text.isEmpty then .ok none
  else
    let root := getNormalizedRoot text
    match resolve root with
    | some file =>
      .ok (some { target := root, isEmbed := true, stats := some file.stat,
                  basePath := some (file.path.drop (baseFolderLen baseFolder)) })
    | none => .error .typeError

/-- The `wikilink` mdast handler (src/parsers/parseMarkdown.ts 115-141).
`getMeta` stands for `getLinkedPageMetadata` (src/parsers/common, attached
only under the `if (file)` guard); its payload type is abstract here.  When
the target does not resolve, the source evaluates `basePath: file.path...`
and `slug: kebabize(file.basename)` on `null` before reaching that guard:
a thrown `TypeError`. -/
def wikilinkAttach {μ : Type} (resolve : List Char → Option VFile) (getMeta : VFile → μ)
    (baseFolder : Option (List Char)) (text : List Char) :
    Except JsError (Option (FileAccessor × Option μ)) :=
  if text.isEmpty then .ok none
  else
    let root := getNormalizedRoot text
    match resolve root with
    | some file =>
      .ok (some ({ target := root, isEmbed := false,
                   basePath := some (file.path.drop (baseFolderLen baseFolder)),
                   slug := some (kebabize file.basename) },
                 some (getMeta file)))
    | none => .error .typeError

/-- The regex test `/:\/\//.test(url)`: the url contains the substring `://`. -/
def hasSchemeSep (u : List Char) : Bool :=
  decide ([':', '/', '/'] <:+: u)

/-- The regex test `/.md$/.test(url)`: some character other than a line
terminator, followed by `md`, at the very end of the string. -/
def dotMdEnd (u : List Char) : Bool :=
  match u.reverse with
  | 'd' :: 'm' :: c :: _ =>
    !(c == '\n') && !(c == '\r') && !(c == Char.ofNat 0x2028) && !(c == Char.ofNat 0x2029)
  | _ => false

/-- Node classification produced by the internal-link post-processor:
`link`/`image` keep their type except that an image is retyped `embedLink`. -/
inductive InternalLinkKind where
  | keep
  | embedLink
deriving DecidableEq, Repr

/-- The `internalMarkdownLinks` post-processor callback
(src/parsers/parseMarkdown.ts 142-172).  `url` is `node.url` (`none` for a
missing property, and the empty string is falsy too).  In the embed branch
the source evaluates `stats: file.stat` with no `null` guard — a thrown
`TypeError` for a dangling embed — whereas the non-embed branch guards its
metadata attachment with `if (file)`. -/
def internalMarkdownLinkAttach {μ : Type} (resolve : List Char → Option VFile)
    (getMeta : VFile → μ) (url : Option (List Char)) (isEmbed : Bool) :
    Except JsError (Option (InternalLinkKind × FileAccessor × Option μ)) :=
  match url with
  | none => .ok none
  | some u =>
    if u.isEmpty then .ok none
    else if hasSchemeSep u then .ok none
    else if !dotMdEnd u then .ok none
    else
      match decodeURIComponentModel u with
      | .error e => .error e
      | .ok target =>
        match resolve target, isEmbed with
        | some file, true =>
          .ok (some (.embedLink, { target := target, isEmbed := true, stats := some file.stat }, none))
        | none, true => .error .typeError
        | some file, false =>
          .ok (some (.keep, { target := target, isEmbed := false }, some (getMeta file)))
        | none, false =>
          .ok (some (.keep, { target := target, isEmbed := false }, none))

/-! ## Settings/frontmatter merge: `parseMarkdown` (src/parsers/parseMarkdown.ts 178-206) -/

/-- A frontmatter/settings value.  Only equality with the string `basic`
matters to the merge; everything else is carried opaquely. -/
inductive MVal where
  | str (v : List Char)
  | other (tag : Nat)
deriving DecidableEq, Repr

/-- The frontmatter format key (`frontmatterKey` from src/parsers/common,
not included under src/; its concrete spelling is immaterial to every claim,
only its membership in `settingKeyLookup` below matters). -/
def frontmatterKey : List Char := ("kanban-plugin").toList

/-- `settingKeyLookup` (src/Settings.ts 115-156): the recognized
configuration-key set. -/
def settingKeyLookup : List (List Char) :=
  [frontmatterKey,
   ("append-archive-date").toList, ("archive-date-format").toList,
   ("archive-date-separator").toList, ("archive-with-date").toList,
   ("date-colors").toList, ("date-display-format").toList, ("date-format").toList,
   ("date-picker-week-start").toList, ("date-time-display-format").toList,
   ("date-trigger").toList, ("full-list-lane-width").toList, ("hide-card-count").toList,
   ("inline-metadata-position").toList, ("lane-width").toList,
   ("link-date-to-daily-note").toList, ("list-collapse").toList,
   ("max-archive-size").toList, ("metadata-keys").toList, ("move-dates").toList,
   ("move-tags").toList, ("move-task-metadata").toList,
   ("new-card-insertion-method").toList, ("new-line-trigger").toList,
   ("new-note-folder").toList, ("new-note-template").toList, ("show-add-list").toList,
   ("show-archive-all").toList, ("show-board-settings").toList,
   ("show-checkboxes").toList, ("show-relative-date").toList, ("show-search").toList,
   ("show-set-view").toList, ("show-view-as-markdown").toList, ("table-sizing").toList,
   ("tag-action").toList, ("tag-colors").toList, ("tag-sort").toList,
   ("time-format").toList, ("time-trigger").toList]

/-- A JS object modelled as an insertion-ordered association list with a
string key; `objSet` is property assignment `o[k] = v` (overwrite in place if
the key exists, else append), `objGet` is property read. -/
def objSet {β : Type} : List (List Char × β) → List Char → β → List (List Char × β)
  | [], k, v => [(k, v)]
  | (k0, v0) :: rest, k, v =>
    if k0 == k then (k0, v) :: rest else (k0, v0) :: objSet rest k v

/-- Property read `o[k]` (JS objects have at most one entry per key). -/
def objGet {β : Type} (m : List (List Char × β)) (k : List Char) : Option β :=
  (m.find? (fun p => p.1 == k)).map (fun p => p.2)

/-- The `'basic'` → `'board'` normalization applied to the format key's value. -/
def basicToBoard (v : MVal) : MVal :=
  if v == .str (("basic").toList) then .str (("board").toList) else v

/-- The body of the `Object.keys(mdFrontmatter).forEach` loop in
`parseMarkdown`, folded over the header entries; the state is the pair
`(settings, fileFrontmatter)`, with `settings` starting as a copy of the
footer object and `fileFrontmatter` starting empty. -/
def mergeStep (acc : List (List Char × MVal) × List (List Char × MVal))
    (kv : List Char × MVal) : List (List Char × MVal) × List (List Char × MVal) :=
  if kv.1 == frontmatterKey then
    let val := basicToBoard kv.2
    (objSet acc.1 kv.1 val, objSet acc.2 kv.1 val)
  else if settingKeyLookup.contains kv.1 then
    (objSet acc.1 kv.1 kv.2, acc.2)
  else
    (acc.1, objSet acc.2 kv.1 kv.2)

/-- The settings/frontmatter merge of `parseMarkdown`
(src/parsers/parseMarkdown.ts 179-194): footer object as base, header keys
dispatched by recognition.  Returns `(settings, fileFrontmatter)`. -/
def parseMarkdownMerge (mdSettings mdFrontmatter : List (List Char × MVal)) :
    List (List Char × MVal) × List (List Char × MVal) :=
  mdFrontmatter.foldl mergeStep (mdSettings, [])

/-! ## Aggregate index: `_generateAst` / `saveAsPublished` (src/Settings.ts 1706-1999) -/

/-- One exported record as it appears in the `files` list of main.meta.json
(`ExportedFiles`, src/Settings.ts 179-183): the flattened identity fields are
summarized by `path` and the `stat.mtime` used for sorting. -/
structure ExportRec where
  path : List Char
  slug : List Char
  preview : Option (List Char)
  tags : List (List Char)
  mtime : Int
deriving DecidableEq, Repr

/-- One tag-index entry (`PathSlug`, src/Settings.ts 173-177). -/
structure PathSlug where
  path : List Char
  slug : List Char
  preview : Option (List Char)
deriving DecidableEq, Repr

/-- The entry pushed for a record into a tag's collection
(`{ path: f.path, slug: f.slug, preview: f.preview }`). -/
def mkEntry (f : ExportRec) : PathSlug :=
  { path := f.path, slug := f.slug, preview := f.preview }

/-- `tagMap.get(tag)` / push / `tagMap.set(tag, col)`: append an entry to the
tag's collection, creating the key at the end if absent (JS `Map` preserves
insertion order, and `set` on an existing key updates in place). -/
def addTag (m : List (List Char × List PathSlug)) (tag : List Char) (e : PathSlug) :
    List (List Char × List PathSlug) :=
  match m with
  | [] => [(tag, [e])]
  | (k, v) :: rest =>
    if k == tag then (k, v ++ [e]) :: rest else (k, v) :: addTag rest tag e

/-- The tag-index build: a single pass over all records' tag lists, in record
order (src/Settings.ts 1785-1809 and 1970-1981 are this same loop). -/
def buildTagIndex (files : List ExportRec) : List (List Char × List PathSlug) :=
  files.foldl (fun m f => f.tags.foldl (fun m tag => addTag m tag (mkEntry f)) m) []

/-- The sort comparator `(a, b) => b.stat.mtime - a.stat.mtime` viewed as the
total preorder it induces: newest-modified first. -/
def mtimeDescLe (a b : ExportRec) : Bool :=
  b.mtime ≤ a.mtime

/-- `files.sort((a, b) => b.stat.mtime - a.stat.mtime)`: a stable sort by
modification time descending (JS `Array.prototype.sort` is stable). -/
def sortFiles (files : List ExportRec) : List ExportRec :=
  files.mergeSort mtimeDescLe

/-- The upsert of `saveAsPublished` (src/Settings.ts 1961-1966):
`findIndex` on matching path, replace in place if found, else push.
Replacing the first match and appending otherwise is exactly
`existingMeta.files[existingIdx] = fileData` / `existingMeta.files.push(fileData)`. -/
def upsertFiles (files : List ExportRec) (rec : ExportRec) : List ExportRec :=
  match files with
  | [] => [rec]
  | f :: rest =>
    if f.path == rec.path then rec :: rest else f :: upsertFiles rest rec

/-- The persisted aggregate index (`main.meta.json`):
`{ files: ..., tags: ... }`. -/
structure AggregateIndex where
  files : List ExportRec
  tags : List (List Char × List PathSlug)
deriving DecidableEq, Repr

/-- The `{ files: [], tags: [] }` default of `saveAsPublished`. -/
def emptyMeta : AggregateIndex := { files := [], tags := [] }

/-- `saveAsPublished`'s read of the existing index (src/Settings.ts
1951-1959): `none` models a missing main.meta.json, `.error` a JSON.parse
failure; both silently fall back to the empty default. -/
def resolveExistingMeta (read : Option (Except Unit AggregateIndex)) : AggregateIndex :=
  match read with
  | some (.ok m) => m
  | some (.error _) => emptyMeta
  | none => emptyMeta

/-- The index update of `saveAsPublished` (src/Settings.ts 1961-1983):
upsert, re-sort by mtime descending, rebuild the tag index from scratch. -/
def saveAsPublishedMeta (existing : AggregateIndex) (rec : ExportRec) : AggregateIndex :=
  let fs := sortFiles (upsertFiles existing.files rec)
  { files := fs, tags := buildTagIndex fs }

/-- The index recomputation of `_generateAst` (src/Settings.ts 1784-1816):
sort the collected records by mtime descending, rebuild the tag index. -/
def rebuildIndex (records : List ExportRec) : AggregateIndex :=
  let fs := sortFiles records
  { files := fs, tags := buildTagIndex fs }

/-- First-match lookup of a tag's entry list in the tag index; `[]` when the
tag is absent. -/
def entriesOf (tags : List (List Char × List PathSlug)) (t : List Char) : List PathSlug :=
  match tags.find? (fun p => p.1 == t) with
  | some p => p.2
  | none => []

/-! ## Vault state: `generateAst` / `saveAsDraft` / rebuild choreography
(src/Settings.ts 1677-1819, 1875-1911) -/

/-- A stored vault file: path, byte content, modification time. -/
structure VEntry where
  path : List Char
  content : List Char
  mtime : Int
deriving DecidableEq, Repr

/-- The vault modelled as the ordered list of its files. -/
abbrev VaultState := List VEntry

/-- Read a file's content by path (`vault.read` after `getFileByPath`). -/
def getContent (vs : VaultState) (p : List Char) : Option (List Char) :=
  ((vs.find? (fun e => e.path == p)).map (fun e => e.content))

/-- `vault.modify` when the path exists, else `vault.create` (which appends a
new file); writes stamp the entry with the current time. -/
def setFileFS (vs : VaultState) (p c : List Char) (now : Int) : VaultState :=
  match vs with
  | [] => [{ path := p, content := c, mtime := now }]
  | e :: rest =>
    if e.path == p then { path := p, content := c, mtime := now } :: rest
    else e :: setFileFS rest p c now

/-- `file.name`: the basename, i.e. the segment after the last `/`. -/
def nameOf (p : List Char) : List Char :=
  (p.reverse.takeWhile (fun c => !(c == '/'))).reverse

/-- `file.path.substring(0, file.path.length - 3)`: the document stem with
its `.md` extension removed. -/
def stemOf (p : List Char) : List Char :=
  p.take (p.length - 3)

/-- The deletion predicate of `generateAst` (src/Settings.ts 1684):
`file.name.endsWith('.ast.json') && !file.name.endsWith('.draft.ast.json')`. -/
def isPublishedArtifactName (name : List Char) : Bool :=
  (".ast.json").toList.isSuffixOf name && !((".draft.ast.json").toList.isSuffixOf name)

/-- The published artifacts `generateAst` schedules for deletion. -/
def generateAstDeleteTargets (vs : VaultState) : List VEntry :=
  vs.filter (fun e => isPublishedArtifactName (nameOf e.path))

/-- The vault after `generateAst`'s deletion pass. -/
def afterArtifactDeletes (vs : VaultState) : VaultState :=
  vs.filter (fun e => !isPublishedArtifactName (nameOf e.path))

/-- The per-document eligibility filter of `_generateAst` (src/Settings.ts
1713-1718): a markdown file (the vault's markdown list, modelled as the
`.md`-suffix check) under the base folder, skipping draft/published
snapshots. -/
def isEligibleDoc (baseFolder : List Char) (e : VEntry) : Bool :=
  (".md").toList.isSuffixOf e.path
    && (baseFolder ++ [Char.ofNat 47]).isPrefixOf e.path
    && !((".draft.md").toList.isSuffixOf (nameOf e.path))
    && !((".published.md").toList.isSuffixOf (nameOf e.path))

/-- The documents `_generateAst` re-assembles, in vault order. -/
def docsOf (baseFolder : List Char) (vs : VaultState) : List VEntry :=
  vs.filter (isEligibleDoc baseFolder)

/-- The artifact path `savePath` of a document (src/Settings.ts 1728). -/
def artifactPath (docPath : List Char) : List Char :=
  stemOf docPath ++ (".ast.json").toList

/-- `<baseFolder>/main.meta.json`. -/
def metaPathOf (baseFolder : List Char) : List Char :=
  baseFolder ++ ("/main.meta.json").toList

/-- One full `generateAst` + `_generateAst` pass over a single base folder
(src/Settings.ts 1677-1819), parameterized by the pure per-document
serializers: `render` produces the byte content of a document's `.ast.json`
artifact and `toRecord` its entry in the aggregate index (both are functions
of the document's entry alone — content, path and stat — matching the
deterministic assembly in `_generateAst`); `serialize` is
`JSON.stringify(mainMeta, undefined, 2)`.  Steps: delete published artifacts,
collect eligible documents, create one artifact per document (the artifact
paths are vacant after the deletion pass, so `vault.create` appends), delete
and recreate main.meta.json from the recomputed index. -/
def rebuildState (render : VEntry → List Char) (toRecord : VEntry → ExportRec)
    (serialize : AggregateIndex → List Char) (baseFolder : List Char)
    (now : Int) (vs : VaultState) : VaultState :=
  let vs1 := afterArtifactDeletes vs
  let docs := docsOf baseFolder vs1
  let arts : List VEntry :=
    docs.map (fun e => { path := artifactPath e.path, content := render e, mtime := now })
  let vs2 := vs1 ++ arts
  let idx := rebuildIndex (docs.map toRecord)
  (vs2.filter (fun e => !(e.path == metaPathOf baseFolder)))
    ++ [{ path := metaPathOf baseFolder, content := serialize idx, mtime := now }]

/-- `saveAsDraft` (src/Settings.ts 1875-1911) as a vault transformer: write
(modify-or-create) the draft artifact pair and nothing else.  `astJson` is
the serialized record, `raw` the verbatim source text that was read. -/
def saveAsDraftFS (vs : VaultState) (docPath astJson raw : List Char) (now : Int) :
    VaultState :=
  let vs1 := setFileFS vs (stemOf docPath ++ (".draft.ast.json").toList) astJson now
  setFileFS vs1 (stemOf docPath ++ (".draft.md").toList) raw now

/-- The last `n` characters of a string. -/
def lastN (l : List Char) (n : Nat) : List Char :=
  l.drop (l.length - n)

/-- The byte contents of a vault, forgetting modification times: the
"byte-identical artifacts" view of a state. -/
def contentsOf (vs : VaultState) : List (List Char × List Char) :=
  vs.map (fun e => (e.path, e.content))

/-- Number of backtick characters at indices in `[a, b)` of `md` (used to
describe the footer scanner's right-to-left backtick count). -/
def ticksIn (md : List Char) (a b : Nat) : Nat :=
  (List.range' a (b - a)).countP (fun (j : Nat) => getC md (j : Int) == some tickChar)

/-! ## Suffix toolkit -/

theorem suffix_lastN {u a : List Char} (h : u <:+ a) : lastN a u.length = u := by
  obtain ⟨t, rfl⟩ := h
  unfold lastN
  rw [List.length_append, Nat.add_sub_cancel, List.drop_left]

theorem lastN_of_suffix_le {u a : List Char} (h : u <:+ a) {n : Nat} (hn : n ≤ u.length) :
    lastN a n = lastN u n := by
  obtain ⟨t, rfl⟩ := h
  unfold lastN
  rw [List.length_append]
  have he : t.length + u.length - n = t.length + (u.length - n) := by omega
  rw [he, List.drop_append]

theorem ne_of_last_ne {u v a b : List Char} (hu : u <:+ a) (hv : v <:+ b)
    (hlen : u.length = v.length) (hne : u ≠ v) : a ≠ b := by
  intro h
  subst h
  exact hne ((suffix_lastN hu).symm.trans (by rw [hlen]; exact suffix_lastN hv))

theorem not_suffix_of_last_ne {u v a : List Char} (hu : u <:+ a)
    (hn : v.length ≤ u.length) (hne : lastN u v.length ≠ v) : ¬ v <:+ a := by
  intro hv
  exact hne ((lastN_of_suffix_le hu hn).symm.trans (suffix_lastN hv))

/-! ## C1 — dangling links throw instead of degrading -/

/-- C1: the claim states that a wikilink, embed-wikilink or internal markdown
link whose target does not resolve still yields a FileAccessor with the
file-identity fields absent and no error.  Evaluating the handlers with a
resolver that finds nothing shows the opposite for three of the four paths:
the `wikilink` and `embedWikilink` handlers and the embed branch of
`internalMarkdownLinks` dereference the `null` lookup result (`file.path`,
`file.basename`, `file.stat`) and throw a `TypeError`, aborting the parse;
only the non-embed internal-link branch degrades as the claim describes. -/
theorem c1_dangling_link_raises :
    wikilinkAttach (fun _ => none) (fun _ => ()) none (("Missing").toList)
      = .error .typeError ∧
    embedWikilinkAttach (fun _ => none) none (("Missing").toList)
      = .error .typeError ∧
    internalMarkdownLinkAttach (fun _ => none) (fun _ => ()) (some (("a.md").toList)) true
      = .error .typeError ∧
    internalMarkdownLinkAttach (fun _ => none) (fun _ => ()) (some (("a.md").toList)) false
      = .ok (some (.keep, { target := ("a.md").toList, isEmbed := false }, none)) := by
  refine ⟨rfl, rfl, ?_, ?_⟩ <;> rfl

/-! ## C10 — corrupt main.meta.json silently resets the index -/

/-- C10: when the persisted index exists but fails to parse, `saveAsPublished`
falls back to the `{ files: [], tags: [] }` default with no error surfaced
(the `catch` block is empty), and the index it then writes holds exactly the
newly published record. -/
theorem c10_corrupt_meta_resets (rec : ExportRec) :
    resolveExistingMeta (some (.error ())) = emptyMeta ∧
    (saveAsPublishedMeta (resolveExistingMeta (some (.error ()))) rec).files = [rec] := by
  refine ⟨rfl, ?_⟩
  show (saveAsPublishedMeta emptyMeta rec).files = [rec]
  simp [saveAsPublishedMeta, emptyMeta, upsertFiles, sortFiles, List.mergeSort_singleton]

/-! ## C8 — saveAsDraft leaves the aggregate index untouched -/

theorem getContent_cons (e : VEntry) (rest : VaultState) (p : List Char) :
    getContent (e :: rest) p = if e.path == p then some e.content else getContent rest p := by
  unfold getContent
  rw [List.find?_cons]
  by_cases h : (e.path == p) = true
  · simp [h]
  · simp [h]

theorem getContent_setFileFS_ne (vs : VaultState) {p q : List Char} (c : List Char)
    (now : Int) (h : p ≠ q) : getContent (setFileFS vs q c now) p = getContent vs p := by
  have hqp : (q == p) = false := by
    simp only [beq_eq_false_iff_ne, ne_eq]
    exact fun he => h he.symm
  induction vs with
  | nil =>
    simp [setFileFS, getContent, List.find?, hqp]
  | cons e rest ih =>
    unfold setFileFS
    by_cases hq : (e.path == q) = true
    · have hep : (e.path == p) = false := by
        simp only [beq_eq_false_iff_ne, ne_eq]
        simp only [beq_iff_eq] at hq
        rw [hq]
        exact fun he => h he.symm
      simp only [hq, if_true]
      rw [getContent_cons, getContent_cons]
      simp [hqp, hep]
    · simp only [hq]
      simp only [Bool.false_eq_true, if_false]
      rw [getContent_cons, getContent_cons]
      by_cases hp : (e.path == p) = true
      · simp [hp]
      · simp only [hp, Bool.false_eq_true, if_false]
        exact ih

/-- C8: `saveAsDraft` writes only the `<stem>.draft.ast.json` /
`<stem>.draft.md` pair, and both paths differ from `<base>/main.meta.json`
whatever the document and base folder are, so the persisted aggregate index
is unchanged — same content, hence same file list, same cardinality. -/
theorem c8_draft_isolation (vs : VaultState) (docPath astJson raw : List Char)
    (now : Int) (baseFolder : List Char) :
    getContent (saveAsDraftFS vs docPath astJson raw now) (metaPathOf baseFolder)
      = getContent vs (metaPathOf baseFolder) := by
  have hmeta : ("/main.meta.json").toList <:+ metaPathOf baseFolder :=
    List.suffix_append _ _
  have h1 : metaPathOf baseFolder ≠ stemOf docPath ++ (".draft.ast.json").toList := by
    refine ne_of_last_ne hmeta (List.suffix_append _ _) (by decide) (by decide)
  have h2 : metaPathOf baseFolder ≠ stemOf docPath ++ (".draft.md").toList := by
    have hmj : ("meta.json").toList <:+ metaPathOf baseFolder :=
      List.IsSuffix.trans (by decide) hmeta
    refine ne_of_last_ne hmj (List.suffix_append _ _) (by decide) (by decide)
  unfold saveAsDraftFS
  rw [getContent_setFileFS_ne _ _ _ h2, getContent_setFileFS_ne _ _ _ h1]

/-! ## C7 — rebuild deletes published artifacts only, scans eligible docs only -/

/-- C7: `generateAst` schedules for deletion exactly the files whose name
ends in `.ast.json` but not `.draft.ast.json` (so draft artifacts are never
deleted), and `_generateAst` re-assembles exactly the markdown documents
under the configured base folder whose names do not mark them as `.draft.md`
or `.published.md` snapshots. -/
theorem c7_rebuild_scan_frame :
    (∀ (vs : VaultState) (e : VEntry), e ∈ generateAstDeleteTargets vs ↔
      e ∈ vs ∧ (".ast.json").toList <:+ nameOf e.path
        ∧ ¬ (".draft.ast.json").toList <:+ nameOf e.path) ∧
    (∀ (baseFolder : List Char) (vs : VaultState) (e : VEntry), e ∈ docsOf baseFolder vs ↔
      e ∈ vs ∧ (".md").toList <:+ e.path
        ∧ (baseFolder ++ [Char.ofNat 47]) <+: e.path
        ∧ ¬ (".draft.md").toList <:+ nameOf e.path
        ∧ ¬ (".published.md").toList <:+ nameOf e.path) := by
  constructor
  · intro vs e
    simp [generateAstDeleteTargets, isPublishedArtifactName, List.mem_filter,
      List.isSuffixOf_iff_suffix, Bool.eq_false_iff, and_assoc]
  · intro baseFolder vs e
    simp [docsOf, isEligibleDoc, List.mem_filter, List.isSuffixOf_iff_suffix,
      List.isPrefixOf_iff_prefix, Bool.eq_false_iff, and_assoc]

/-- Closed instance of `c7_rebuild_scan_frame` at a three-file vault: the
published artifact is a delete target, the draft artifact is not, and of the
three `.md` files only the plain document is scanned. -/
theorem c7_rebuild_scan_frame_witness :
    (⟨("b/x.ast.json").toList, [], 0⟩ : VEntry) ∈ generateAstDeleteTargets
        [⟨("b/x.ast.json").toList, [], 0⟩, ⟨("b/y.draft.ast.json").toList, [], 0⟩] ∧
    (⟨("b/y.draft.ast.json").toList, [], 0⟩ : VEntry) ∉ generateAstDeleteTargets
        [⟨("b/x.ast.json").toList, [], 0⟩, ⟨("b/y.draft.ast.json").toList, [], 0⟩] ∧
    (⟨("b/x.md").toList, [], 0⟩ : VEntry) ∈ docsOf (("b").toList)
        [⟨("b/x.md").toList, [], 0⟩, ⟨("b/x.draft.md").toList, [], 0⟩,
         ⟨("b/x.published.md").toList, [], 0⟩] ∧
    (⟨("b/x.draft.md").toList, [], 0⟩ : VEntry) ∉ docsOf (("b").toList)
        [⟨("b/x.md").toList, [], 0⟩, ⟨("b/x.draft.md").toList, [], 0⟩,
         ⟨("b/x.published.md").toList, [], 0⟩] := by
  refine ⟨?_, ?_, ?_, ?_⟩
  · exact (c7_rebuild_scan_frame.1 _ _).mpr (by refine ⟨by simp, by decide, by decide⟩)
  · intro hmem
    have h := (c7_rebuild_scan_frame.1 _ _).mp hmem
    exact h.2.2 (by decide)
  · exact (c7_rebuild_scan_frame.2 _ _ _).mpr
      (by refine ⟨by simp, by decide, by decide, by decide, by decide⟩)
  · intro hmem
    have h := (c7_rebuild_scan_frame.2 _ _ _).mp hmem
    exact h.2.2.2.1 (by decide)

/-! ## Upsert and tag-index lemmas -/

theorem mem_upsert_weak {l : List ExportRec} {r x : ExportRec}
    (h : x ∈ upsertFiles l r) : x = r ∨ x ∈ l := by
  induction l with
  | nil =>
    simp [upsertFiles] at h
    exact Or.inl h
  | cons f rest ih =>
    unfold upsertFiles at h
    by_cases hf : (f.path == r.path) = true
    · simp [hf] at h
      rcases h with h | h
      · exact Or.inl h
      · exact Or.inr (List.mem_cons_of_mem _ h)
    · simp [hf] at h
      rcases h with h | h
      · exact Or.inr (by simp [h])
      · rcases ih h with h | h
        · exact Or.inl h
        · exact Or.inr (List.mem_cons_of_mem _ h)

theorem mem_upsert_self (l : List ExportRec) (r : ExportRec) : r ∈ upsertFiles l r := by
  induction l with
  | nil => simp [upsertFiles]
  | cons f rest ih =>
    unfold upsertFiles
    by_cases hf : (f.path == r.path) = true
    · simp [hf]
    · simp [hf]
      exact Or.inr ih

theorem mem_upsert_of_pairwise {l : List ExportRec} {r : ExportRec}
    (hnd : l.Pairwise (fun a b => a.path ≠ b.path)) :
    ∀ x ∈ upsertFiles l r, x = r ∨ (x ∈ l ∧ x.path ≠ r.path) := by
  induction l with
  | nil =>
    intro x hx
    simp [upsertFiles] at hx
    exact Or.inl hx
  | cons f rest ih =>
    intro x hx
    rw [List.pairwise_cons] at hnd
    unfold upsertFiles at hx
    by_cases hf : (f.path == r.path) = true
    · simp only [hf, if_true] at hx
      rcases List.mem_cons.mp hx with h | h
      · exact Or.inl h
      · refine Or.inr ⟨List.mem_cons_of_mem _ h, ?_⟩
        have := hnd.1 x h
        simp only [beq_iff_eq] at hf
        rw [← hf]
        exact fun he => this he.symm
    · simp only [hf, Bool.false_eq_true, if_false] at hx
      rcases List.mem_cons.mp hx with h | h
      · subst h
        refine Or.inr ⟨List.mem_cons_self _ _, by simpa using hf⟩
      · rcases ih hnd.2 x h with h2 | h2
        · exact Or.inl h2
        · exact Or.inr ⟨List.mem_cons_of_mem _ h2.1, h2.2⟩

theorem upsert_eq_self {l : List ExportRec} {r : ExportRec} (hr : r ∈ l)
    (huniq : ∀ x ∈ l, x.path = r.path → x = r) : upsertFiles l r = l := by
  induction l with
  | nil => cases hr
  | cons f rest ih =>
    unfold upsertFiles
    by_cases hf : (f.path == r.path) = true
    · have : f = r := huniq f (List.mem_cons_self _ _) (by simpa using hf)
      rw [this]
      simp
    · have hfr : f ≠ r := by
        intro he
        rw [he] at hf
        simp at hf
      have hr' : r ∈ rest := by
        rcases List.mem_cons.mp hr with h | h
        · exact absurd h.symm hfr
        · exact h
      simp only [hf, Bool.false_eq_true, if_false]
      rw [ih hr' (fun x hx => huniq x (List.mem_cons_of_mem _ hx))]

theorem pairwise_upsert {l : List ExportRec} {r : ExportRec}
    (hnd : l.Pairwise (fun a b => a.path ≠ b.path)) :
    (upsertFiles l r).Pairwise (fun a b => a.path ≠ b.path) := by
  induction l with
  | nil => simp [upsertFiles]
  | cons f rest ih =>
    rw [List.pairwise_cons] at hnd
    unfold upsertFiles
    by_cases hf : (f.path == r.path) = true
    · simp only [hf, if_true]
      rw [List.pairwise_cons]
      refine ⟨?_, hnd.2⟩
      intro x hx
      simp only [beq_iff_eq] at hf
      rw [← hf]
      exact hnd.1 x hx
    · simp only [hf, Bool.false_eq_true, if_false]
      rw [List.pairwise_cons]
      refine ⟨?_, ih hnd.2⟩
      intro x hx
      rcases mem_upsert_weak hx with h | h
      · rw [h]
        simpa using hf
      · exact hnd.1 x h

theorem countP_upsert {l : List ExportRec} {r : ExportRec}
    (hnd : l.Pairwise (fun a b => a.path ≠ b.path)) :
    (upsertFiles l r).countP (fun f => f.path == r.path) = 1 := by
  induction l with
  | nil => simp [upsertFiles, List.countP_cons]
  | cons f rest ih =>
    rw [List.pairwise_cons] at hnd
    unfold upsertFiles
    by_cases hf : (f.path == r.path) = true
    · simp only [hf, if_true]
      rw [List.countP_cons]
      simp only [beq_self_eq_true, if_true]
      have hz : rest.countP (fun f => f.path == r.path) = 0 := by
        rw [List.countP_eq_zero]
        intro x hx
        simp only [beq_iff_eq]
        have := hnd.1 x hx
        simp only [beq_iff_eq] at hf
        rw [← hf]
        exact fun he => this he.symm
      rw [hz]
    · simp only [hf, Bool.false_eq_true, if_false]
      rw [List.countP_cons]
      simp only [hf]
      simpa using ih hnd.2

theorem sortFiles_perm (l : List ExportRec) : (sortFiles l).Perm l :=
  List.mergeSort_perm l mtimeDescLe

theorem sortFiles_sorted (l : List ExportRec) :
    (sortFiles l).Pairwise (fun a b => mtimeDescLe a b = true) := by
  apply List.sorted_mergeSort
  · intro a b c hab hbc
    simp only [mtimeDescLe, decide_eq_true_eq] at *
    omega
  · intro a b
    simp only [mtimeDescLe]
    rcases Int.le_total b.mtime a.mtime with h | h
    · simp [h]
    · simp [h]

theorem sortFiles_of_sorted {l : List ExportRec}
    (h : l.Pairwise (fun a b => mtimeDescLe a b = true)) : sortFiles l = l :=
  List.mergeSort_of_sorted h

theorem pairwise_sortFiles {l : List ExportRec}
    (hnd : l.Pairwise (fun a b => a.path ≠ b.path)) :
    (sortFiles l).Pairwise (fun a b => a.path ≠ b.path) := by
  refine ((sortFiles_perm l).pairwise_iff ?_).mpr hnd
  intro x y h
  exact fun he => h he.symm

/-! ## C4 — publish performs a path-keyed upsert -/

/-- C4: `saveAsPublished` replaces the record with matching relative path if
present, else appends, then re-sorts by mtime descending and fully recomputes
the tag index; given the maintained invariant that the persisted file list
has pairwise-distinct paths, one publish leaves exactly one entry for the
document's path, and a second publish of the same document (any re-assembled
record `r2` with the same path) still leaves exactly one entry, not two. -/
theorem c4_publish_upsert (m : AggregateIndex) (r r2 : ExportRec)
    (hpath : r2.path = r.path)
    (hnd : m.files.Pairwise (fun a b => a.path ≠ b.path)) :
    (saveAsPublishedMeta m r).files.countP (fun f => f.path == r.path) = 1 ∧
    (saveAsPublishedMeta (saveAsPublishedMeta m r) r2).files.countP
        (fun f => f.path == r.path) = 1 := by
  have h1 : (saveAsPublishedMeta m r).files.countP (fun f => f.path == r.path) = 1 := by
    show (sortFiles (upsertFiles m.files r)).countP (fun f => f.path == r.path) = 1
    rw [List.Perm.countP_eq _ (sortFiles_perm _)]
    exact countP_upsert hnd
  refine ⟨h1, ?_⟩
  have hnd1 : (saveAsPublishedMeta m r).files.Pairwise (fun a b => a.path ≠ b.path) :=
    pairwise_sortFiles (pairwise_upsert hnd)
  show (sortFiles (upsertFiles (saveAsPublishedMeta m r).files r2)).countP
      (fun f => f.path == r.path) = 1
  rw [List.Perm.countP_eq _ (sortFiles_perm _)]
  have hc2 : (upsertFiles (saveAsPublishedMeta m r).files r2).countP
      (fun f => f.path == r2.path) = 1 := countP_upsert hnd1
  rw [hpath] at hc2
  exact hc2

/-- Closed instance of `c4_publish_upsert`: publishing the same record twice
into an empty index leaves exactly one entry. -/
theorem c4_publish_upsert_witness :
    (saveAsPublishedMeta
        (saveAsPublishedMeta emptyMeta
          { path := ("x.ast.json").toList, slug := [], preview := none, tags := [], mtime := 5 })
        { path := ("x.ast.json").toList, slug := [], preview := none, tags := [], mtime := 5 }).files.countP
      (fun f => f.path == ("x.ast.json").toList) = 1 :=
  (c4_publish_upsert emptyMeta
    { path := ("x.ast.json").toList, slug := [], preview := none, tags := [], mtime := 5 }
    { path := ("x.ast.json").toList, slug := [], preview := none, tags := [], mtime := 5 }
    rfl (by simp [emptyMeta])).2

/-! ## Tag-index characterization -/

theorem entriesOf_addTag_same (m : List (List Char × List PathSlug)) (t : List Char)
    (e : PathSlug) : entriesOf (addTag m t e) t = entriesOf m t ++ [e] := by
  induction m with
  | nil => simp [addTag, entriesOf, List.find?]
  | cons kv rest ih =>
    obtain ⟨k, v⟩ := kv
    unfold addTag
    by_cases hk : (k == t) = true
    · simp only [hk, if_true]
      simp [entriesOf, List.find?_cons, hk]
    · simp only [hk, Bool.false_eq_true, if_false]
      simp only [entriesOf, List.find?_cons] at *
      simp only [hk] at *
      exact ih

theorem entriesOf_addTag_other (m : List (List Char × List PathSlug)) {t t' : List Char}
    (e : PathSlug) (h : t' ≠ t) : entriesOf (addTag m t e) t' = entriesOf m t' := by
  induction m with
  | nil =>
    simp only [addTag, entriesOf, List.find?]
    have : (t == t') = false := by
      simp only [beq_eq_false_iff_ne, ne_eq]
      exact fun he => h he.symm
    simp [this]
  | cons kv rest ih =>
    obtain ⟨k, v⟩ := kv
    unfold addTag
    by_cases hk : (k == t) = true
    · have hk' : (k == t') = false := by
        simp only [beq_iff_eq] at hk
        simp only [beq_eq_false_iff_ne, ne_eq, hk]
        exact fun he => h he.symm
      simp only [hk, if_true]
      simp [entriesOf, List.find?_cons, hk']
    · simp only [hk, Bool.false_eq_true, if_false]
      by_cases hk' : (k == t') = true
      · simp [entriesOf, List.find?_cons, hk']
      · simp only [entriesOf, List.find?_cons] at *
        simp only [hk'] at *
        exact ih

theorem entriesOf_foldTags (tags : List (List Char)) (f : ExportRec)
    (m : List (List Char × List PathSlug)) (t : List Char) :
    entriesOf (tags.foldl (fun m tag => addTag m tag (mkEntry f)) m) t
      = entriesOf m t ++ (tags.filter (fun x => x == t)).map (fun _ => mkEntry f) := by
  induction tags generalizing m with
  | nil => simp
  | cons tag rest ih =>
    rw [List.foldl_cons, ih, List.filter_cons]
    by_cases ht : (tag == t) = true
    · have : tag = t := by simpa using ht
      subst this
      rw [entriesOf_addTag_same]
      simp [ht, List.append_assoc]
    · have : t ≠ tag := by
        intro he
        rw [he] at ht
        simp at ht
      rw [entriesOf_addTag_other _ _ this]
      simp [ht]

theorem entriesOf_buildTagIndex (files : List ExportRec) (t : List Char) :
    entriesOf (buildTagIndex files) t
      = files.flatMap (fun f => (f.tags.filter (fun x => x == t)).map (fun _ => mkEntry f)) := by
  suffices h : ∀ m, entriesOf (files.foldl
      (fun m f => f.tags.foldl (fun m tag => addTag m tag (mkEntry f)) m) m) t
      = entriesOf m t ++ files.flatMap
          (fun f => (f.tags.filter (fun x => x == t)).map (fun _ => mkEntry f)) by
    have := h []
    simpa [buildTagIndex, entriesOf] using this
  induction files with
  | nil => simp
  | cons f rest ih =>
    intro m
    rw [List.foldl_cons, ih, entriesOf_foldTags]
    simp [List.append_assoc]

theorem tag_key_mem_of_entries_ne_nil {m : List (List Char × List PathSlug)}
    {t : List Char} (h : entriesOf m t ≠ []) : (t, entriesOf m t) ∈ m := by
  unfold entriesOf at *
  cases hf : m.find? (fun p => p.1 == t) with
  | none => simp [hf] at h
  | some p =>
    simp only [hf]
    have h1 := List.find?_some hf
    have h2 := List.mem_of_find?_eq_some hf
    simp only [beq_iff_eq] at h1
    have : (t, p.2) = p := by
      rw [← h1]
    rw [this]
    exact h2

theorem buildTagIndex_forward {files : List ExportRec} {r : ExportRec} {t : List Char}
    (hr : r ∈ files) (ht : t ∈ r.tags) :
    (t, entriesOf (buildTagIndex files) t) ∈ buildTagIndex files ∧
    ∃ e ∈ entriesOf (buildTagIndex files) t, e.path = r.path := by
  have hmem : mkEntry r ∈ entriesOf (buildTagIndex files) t := by
    rw [entriesOf_buildTagIndex]
    rw [List.mem_flatMap]
    refine ⟨r, hr, ?_⟩
    rw [List.mem_map]
    refine ⟨t, ?_, rfl⟩
    rw [List.mem_filter]
    exact ⟨ht, by simp⟩
  refine ⟨tag_key_mem_of_entries_ne_nil ?_, ⟨mkEntry r, hmem, rfl⟩⟩
  intro he
  rw [he] at hmem
  cases hmem

theorem buildTagIndex_backward {files : List ExportRec} {t : List Char} {e : PathSlug}
    (he : e ∈ entriesOf (buildTagIndex files) t) :
    ∃ r ∈ files, t ∈ r.tags ∧ e = mkEntry r := by
  rw [entriesOf_buildTagIndex, List.mem_flatMap] at he
  obtain ⟨r, hr, hmem⟩ := he
  rw [List.mem_map] at hmem
  obtain ⟨x, hx, hxe⟩ := hmem
  rw [List.mem_filter] at hx
  have : x = t := by simpa using hx.2
  subst this
  exact ⟨r, hr, hx.1, hxe.symm⟩

/-! ## C5 — tag-index completeness and soundness -/

/-- C5: in the index produced by `_generateAst` (`rebuildIndex`) and by
`saveAsPublished` (`saveAsPublishedMeta`), every tag of every record appears
as a key of the tag index with an entry referencing the record's path, and
conversely every entry under a tag comes from a record in the file list that
actually carries that tag (both code paths build the tag map by the same
single pass over the sorted file list). -/
theorem c5_tag_index_consistency :
    (∀ (records : List ExportRec) (r : ExportRec) (t : List Char),
      r ∈ (rebuildIndex records).files → t ∈ r.tags →
        (t, entriesOf (rebuildIndex records).tags t) ∈ (rebuildIndex records).tags ∧
        ∃ e ∈ entriesOf (rebuildIndex records).tags t, e.path = r.path) ∧
    (∀ (records : List ExportRec) (t : List Char) (e : PathSlug),
      e ∈ entriesOf (rebuildIndex records).tags t →
        ∃ r ∈ (rebuildIndex records).files, t ∈ r.tags ∧ e = mkEntry r) ∧
    (∀ (m : AggregateIndex) (rec : ExportRec) (r : ExportRec) (t : List Char),
      r ∈ (saveAsPublishedMeta m rec).files → t ∈ r.tags →
        (t, entriesOf (saveAsPublishedMeta m rec).tags t) ∈ (saveAsPublishedMeta m rec).tags ∧
        ∃ e ∈ entriesOf (saveAsPublishedMeta m rec).tags t, e.path = r.path) ∧
    (∀ (m : AggregateIndex) (rec : ExportRec) (t : List Char) (e : PathSlug),
      e ∈ entriesOf (saveAsPublishedMeta m rec).tags t →
        ∃ r ∈ (saveAsPublishedMeta m rec).files, t ∈ r.tags ∧ e = mkEntry r) := by
  refine ⟨?_, ?_, ?_, ?_⟩
  · intro records r t hr ht
    exact buildTagIndex_forward hr ht
  · intro records t e he
    exact buildTagIndex_backward he
  · intro m rec r t hr ht
    exact buildTagIndex_forward hr ht
  · intro m rec t e he
    exact buildTagIndex_backward he

/-- Closed instance of `c5_tag_index_consistency` at a one-record index
carrying tag `a`: the tag key is present and its entry references the
record's path. -/
theorem c5_tag_index_consistency_witness :
    (("a").toList,
        entriesOf (rebuildIndex
          [{ path := ("p.ast.json").toList, slug := ("p").toList, preview := none,
             tags := [("a").toList], mtime := 1 }]).tags (("a").toList)) ∈
      (rebuildIndex
        [{ path := ("p.ast.json").toList, slug := ("p").toList, preview := none,
           tags := [("a").toList], mtime := 1 }]).tags ∧
    ∃ e ∈ entriesOf (rebuildIndex
        [{ path := ("p.ast.json").toList, slug := ("p").toList, preview := none,
           tags := [("a").toList], mtime := 1 }]).tags (("a").toList),
      e.path = ("p.ast.json").toList := by
  have h := c5_tag_index_consistency.1
    [{ path := ("p.ast.json").toList, slug := ("p").toList, preview := none,
       tags := [("a").toList], mtime := 1 }]
    { path := ("p.ast.json").toList, slug := ("p").toList, preview := none,
      tags := [("a").toList], mtime := 1 }
    (("a").toList)
    (by simp [rebuildIndex, sortFiles, List.mergeSort_singleton])
    (by simp)
  exact ⟨h.1, by simpa using h.2⟩

/-! ## Object-assignment lemmas and the settings merge -/

theorem objGet_objSet_same {β : Type} (m : List (List Char × β)) (k : List Char) (v : β) :
    objGet (objSet m k v) k = some v := by
  induction m with
  | nil => simp [objSet, objGet, List.find?]
  | cons kv rest ih =>
    obtain ⟨k0, v0⟩ := kv
    unfold objSet
    by_cases hk : (k0 == k) = true
    · simp [objGet, List.find?_cons, hk]
    · simp only [hk, Bool.false_eq_true, if_false]
      simp only [objGet, List.find?_cons] at *
      simp only [hk] at *
      exact ih

theorem objGet_objSet_other {β : Type} (m : List (List Char × β)) {k k' : List Char} (v : β)
    (h : k' ≠ k) : objGet (objSet m k v) k' = objGet m k' := by
  induction m with
  | nil =>
    have hk : (k == k') = false := by
      simp only [beq_eq_false_iff_ne, ne_eq]
      exact fun he => h he.symm
    simp [objSet, objGet, List.find?, hk]
  | cons kv rest ih =>
    obtain ⟨k0, v0⟩ := kv
    unfold objSet
    by_cases hk : (k0 == k) = true
    · have hk' : (k0 == k') = false := by
        simp only [beq_iff_eq] at hk
        simp only [beq_eq_false_iff_ne, ne_eq, hk]
        exact fun he => h he.symm
      simp only [hk, if_true]
      simp [objGet, List.find?_cons, hk']
    · simp only [hk, Bool.false_eq_true, if_false]
      by_cases hk' : (k0 == k') = true
      · simp [objGet, List.find?_cons, hk']
      · simp only [objGet, List.find?_cons] at *
        simp only [hk'] at *
        exact ih

theorem merge_fold_untouched {fm : List (List Char × MVal)} {k : List Char}
    (hk : ∀ kv ∈ fm, kv.1 ≠ k) (acc : List (List Char × MVal) × List (List Char × MVal)) :
    objGet (fm.foldl mergeStep acc).1 k = objGet acc.1 k ∧
    objGet (fm.foldl mergeStep acc).2 k = objGet acc.2 k := by
  induction fm generalizing acc with
  | nil => exact ⟨rfl, rfl⟩
  | cons kv rest ih =>
    rw [List.foldl_cons]
    have hkv : kv.1 ≠ k := hk kv (List.mem_cons_self _ _)
    have hrest : ∀ x ∈ rest, x.1 ≠ k := fun x hx => hk x (List.mem_cons_of_mem _ hx)
    have hstep1 : objGet (mergeStep acc kv).1 k = objGet acc.1 k := by
      unfold mergeStep
      by_cases h1 : (kv.1 == frontmatterKey) = true
      · simp only [h1, if_true]
        exact objGet_objSet_other _ _ (fun he => hkv he.symm)
      · simp only [h1, Bool.false_eq_true, if_false]
        by_cases h2 : settingKeyLookup.contains kv.1 = true
        · simp only [h2, if_true]
          exact objGet_objSet_other _ _ (fun he => hkv he.symm)
        · simp only [h2, Bool.false_eq_true, if_false]
    have hstep2 : objGet (mergeStep acc kv).2 k = objGet acc.2 k := by
      unfold mergeStep
      by_cases h1 : (kv.1 == frontmatterKey) = true
      · simp only [h1, if_true]
        exact objGet_objSet_other _ _ (fun he => hkv he.symm)
      · simp only [h1, Bool.false_eq_true, if_false]
        by_cases h2 : settingKeyLookup.contains kv.1 = true
        · simp only [h2, if_true]
        · simp only [h2, Bool.false_eq_true, if_false]
          exact objGet_objSet_other _ _ (fun he => hkv he.symm)
    have := ih hrest (mergeStep acc kv)
    exact ⟨this.1.trans hstep1, this.2.trans hstep2⟩

theorem merge_fold_get {fm : List (List Char × MVal)}
    (hnd : fm.Pairwise (fun a b => a.1 ≠ b.1))
    (acc : List (List Char × MVal) × List (List Char × MVal)) (k : List Char) :
    objGet (fm.foldl mergeStep acc).1 k =
      (match fm.find? (fun kv => kv.1 == k) with
       | some kv =>
         if k = frontmatterKey then some (basicToBoard kv.2)
         else if settingKeyLookup.contains k then some kv.2
         else objGet acc.1 k
       | none => objGet acc.1 k) ∧
    objGet (fm.foldl mergeStep acc).2 k =
      (match fm.find? (fun kv => kv.1 == k) with
       | some kv =>
         if k = frontmatterKey then some (basicToBoard kv.2)
         else if settingKeyLookup.contains k then objGet acc.2 k
         else some kv.2
       | none => objGet acc.2 k) := by
  induction fm generalizing acc with
  | nil => exact ⟨rfl, rfl⟩
  | cons kv rest ih =>
    rw [List.pairwise_cons] at hnd
    rw [List.foldl_cons, List.find?_cons]
    by_cases hk : (kv.1 == k) = true
    · have hkeq : kv.1 = k := by simpa using hk
      simp only [hk]
      have hrest : ∀ x ∈ rest, x.1 ≠ k := by
        intro x hx
        rw [← hkeq]
        exact fun he => (hnd.1 x hx) he.symm
      have hun := merge_fold_untouched hrest (mergeStep acc kv)
      rw [hun.1, hun.2]
      subst hkeq
      unfold mergeStep
      by_cases h1 : (kv.1 == frontmatterKey) = true
      · have h1' : kv.1 = frontmatterKey := by simpa using h1
        simp only [h1, if_true, h1']
        simp [objGet_objSet_same]
      · have h1' : ¬ kv.1 = frontmatterKey := by simpa using h1
        simp only [h1, Bool.false_eq_true, if_false]
        by_cases h2 : settingKeyLookup.contains kv.1 = true
        · simp only [h2, if_true]
          simp [h1', h2, objGet_objSet_same]
        · simp only [h2, Bool.false_eq_true, if_false]
          simp only [h1', if_false, h2]
          simp [objGet_objSet_same]
    · simp only [hk]
      have hkne : k ≠ kv.1 := by
        intro he
        rw [he] at hk
        simp at hk
      have hstep1 : objGet (mergeStep acc kv).1 k = objGet acc.1 k := by
        unfold mergeStep
        by_cases h1 : (kv.1 == frontmatterKey) = true
        · simp only [h1, if_true]
          exact objGet_objSet_other _ _ hkne
        · simp only [h1, Bool.false_eq_true, if_false]
          by_cases h2 : settingKeyLookup.contains kv.1 = true
          · simp only [h2, if_true]
            exact objGet_objSet_other _ _ hkne
          · simp only [h2, Bool.false_eq_true, if_false]
      have hstep2 : objGet (mergeStep acc kv).2 k = objGet acc.2 k := by
        unfold mergeStep
        by_cases h1 : (kv.1 == frontmatterKey) = true
        · simp only [h1, if_true]
          exact objGet_objSet_other _ _ hkne
        · simp only [h1, Bool.false_eq_true, if_false]
          by_cases h2 : settingKeyLookup.contains kv.1 = true
          · simp only [h2, if_true]
          · simp only [h2, Bool.false_eq_true, if_false]
            exact objGet_objSet_other _ _ hkne
      have := ih hnd.2 (mergeStep acc kv)
      refine ⟨this.1.trans ?_, this.2.trans ?_⟩
      · cases hf : rest.find? (fun x => x.1 == k) with
        | none => simpa using hstep1
        | some kv2 =>
          simp only
          by_cases hfk : k = frontmatterKey
          · simp [hfk]
          · simp only [hfk, if_false]
            by_cases hc : k ∈ settingKeyLookup
            · simp [hc]
            · simp [hc, hstep1]
      · cases hf : rest.find? (fun x => x.1 == k) with
        | none => simpa using hstep2
        | some kv2 =>
          simp only
          by_cases hfk : k = frontmatterKey
          · simp [hfk]
          · simp only [hfk, if_false]
            by_cases hc : k ∈ settingKeyLookup
            · simp [hc, hstep2]
            · simp [hc]

/-! ## C6 — settings merge: header override is not verbatim for the format key -/

/-- C6 counterexample: the claim says header values override footer values
verbatim for recognized configuration keys, but for the recognized format key
the header value `basic` is stored as `board` (in both the settings and the
returned frontmatter), not as the header value. -/
theorem c6_settings_merge_counterexample :
    objGet (parseMarkdownMerge [] [(frontmatterKey, MVal.str (("basic").toList))]).1
        frontmatterKey
      = some (MVal.str (("board").toList)) ∧
    ¬ objGet (parseMarkdownMerge [] [(frontmatterKey, MVal.str (("basic").toList))]).1
        frontmatterKey
      = some (MVal.str (("basic").toList)) := by
  constructor
  · rfl
  · intro h
    have h0 : objGet (parseMarkdownMerge [] [(frontmatterKey, MVal.str (("basic").toList))]).1
        frontmatterKey = some (MVal.str (("board").toList)) := rfl
    rw [h0] at h
    simp at h

/-- C6 amended: `parseMarkdown` builds the settings as the union of the
footer fields (base) and the recognized header fields (override), and routes
unrecognized header keys to the returned frontmatter only — except that the
format key's value `basic` is normalized to `board` before being stored, and
the format key, though recognized, is additionally copied into the returned
frontmatter. -/
theorem c6_settings_merge_amended (mdSettings mdFrontmatter : List (List Char × MVal))
    (hnd : mdFrontmatter.Pairwise (fun a b => a.1 ≠ b.1)) (k : List Char) :
    (objGet (parseMarkdownMerge mdSettings mdFrontmatter).1 k =
      match objGet mdFrontmatter k with
      | some v =>
        if k = frontmatterKey then some (basicToBoard v)
        else if k ∈ settingKeyLookup then some v
        else objGet mdSettings k
      | none => objGet mdSettings k) ∧
    (objGet (parseMarkdownMerge mdSettings mdFrontmatter).2 k =
      match objGet mdFrontmatter k with
      | some v =>
        if k = frontmatterKey then some (basicToBoard v)
        else if k ∈ settingKeyLookup then none
        else some v
      | none => none) := by
  have h := merge_fold_get hnd (mdSettings, ([] : List (List Char × MVal))) k
  unfold parseMarkdownMerge
  have hemp : objGet ([] : List (List Char × MVal)) k = none := by
    simp [objGet, List.find?]
  cases hf : mdFrontmatter.find? (fun kv => kv.1 == k) with
  | none =>
    rw [hf] at h
    have hobj : objGet mdFrontmatter k = none := by
      simp [objGet, hf]
    rw [hobj]
    exact ⟨h.1, h.2.trans hemp⟩
  | some kv =>
    rw [hf] at h
    have hobj : objGet mdFrontmatter k = some kv.2 := by
      simp [objGet, hf]
    rw [hobj]
    refine ⟨h.1.trans ?_, h.2.trans ?_⟩
    · simp
    · by_cases hfk : k = frontmatterKey
      · simp [hfk]
      · simp only [hfk, if_false]
        by_cases hc : k ∈ settingKeyLookup
        · simp [hc, hemp]
        · simp [hc]

/-- Closed instance of `c6_settings_merge_amended` at a two-key header (one
recognized non-format key, one unrecognized key) over a one-key footer. -/
theorem c6_settings_merge_amended_witness :
    objGet (parseMarkdownMerge [((("lane-width").toList), MVal.other 7)]
        [((("lane-width").toList), MVal.other 1), ((("title").toList), MVal.other 2)]).1
      (("lane-width").toList) = some (MVal.other 1) ∧
    objGet (parseMarkdownMerge [((("lane-width").toList), MVal.other 7)]
        [((("lane-width").toList), MVal.other 1), ((("title").toList), MVal.other 2)]).2
      (("title").toList) = some (MVal.other 2) := by
  constructor
  · have h := (c6_settings_merge_amended [((("lane-width").toList), MVal.other 7)]
      [((("lane-width").toList), MVal.other 1), ((("title").toList), MVal.other 2)]
      (by simp) (("lane-width").toList)).1
    rw [h]
    rfl
  · have h := (c6_settings_merge_amended [((("lane-width").toList), MVal.other 7)]
      [((("lane-width").toList), MVal.other 1), ((("title").toList), MVal.other 2)]
      (by simp) (("title").toList)).2
    rw [h]
    rfl

/-! ## Path-shape lemmas for the rebuild choreography -/

theorem takeWhile_append_all {p : Char → Bool} {a : List Char} (b : List Char)
    (h : ∀ c ∈ a, p c = true) : (a ++ b).takeWhile p = a ++ b.takeWhile p := by
  induction a with
  | nil => simp
  | cons c rest ih =>
    have hc : p c = true := h c (List.mem_cons_self _ _)
    simp only [List.cons_append, List.takeWhile_cons, hc, if_true]
    rw [ih (fun x hx => h x (List.mem_cons_of_mem _ hx))]

theorem nameOf_append {s : List Char} (x : List Char) (h : ∀ c ∈ s, c ≠ '/') :
    nameOf (x ++ s) = nameOf x ++ s := by
  unfold nameOf
  rw [List.reverse_append]
  rw [takeWhile_append_all]
  · rw [List.reverse_append, List.reverse_reverse]
  · intro c hc
    simpa using h c (List.mem_reverse.mp hc)

theorem nameOf_after_slash {s : List Char} (x : List Char) (h : ∀ c ∈ s, c ≠ '/') :
    nameOf (x ++ '/' :: s) = s := by
  unfold nameOf
  rw [List.reverse_append, List.reverse_cons]
  rw [List.append_assoc]
  rw [takeWhile_append_all]
  · simp [List.takeWhile_cons]
  · intro c hc
    simpa using h c (List.mem_reverse.mp hc)

theorem suffix_append_cancel {a b s : List Char} : a ++ s <:+ b ++ s ↔ a <:+ b := by
  constructor
  · intro h
    have h1 : (a ++ s).reverse <+: (b ++ s).reverse := List.reverse_prefix.mpr h
    rw [List.reverse_append, List.reverse_append] at h1
    exact List.reverse_prefix.mp ((List.prefix_append_right_inj _).mp h1)
  · intro h
    have h1 : s.reverse ++ a.reverse <+: s.reverse ++ b.reverse :=
      (List.prefix_append_right_inj _).mpr (List.reverse_prefix.mpr h)
    rw [← List.reverse_append, ← List.reverse_append] at h1
    exact List.reverse_prefix.mp h1

theorem stemOf_append_md (y : List Char) : stemOf (y ++ (".md").toList) = y := by
  unfold stemOf
  rw [List.length_append]
  rw [show ((".md").toList).length = 3 from rfl, Nat.add_sub_cancel, List.take_left]

theorem nameOf_metaPath (base : List Char) :
    nameOf (metaPathOf base) = ("main.meta.json").toList := by
  unfold metaPathOf
  rw [show ("/main.meta.json").toList = '/' :: ("main.meta.json").toList from rfl]
  exact nameOf_after_slash base (by decide)

theorem artifactPath_ne_metaPath (p base : List Char) : artifactPath p ≠ metaPathOf base := by
  have h1 : (".ast.json").toList <:+ artifactPath p := List.suffix_append _ _
  have h2 : ("meta.json").toList <:+ metaPathOf base :=
    List.IsSuffix.trans (by decide) (List.suffix_append base _)
  exact ne_of_last_ne h1 h2 (by decide) (by decide)

theorem md_not_suffix_metaPath (base : List Char) : ¬ (".md").toList <:+ metaPathOf base := by
  have h : ("/main.meta.json").toList <:+ metaPathOf base := List.suffix_append _ _
  exact not_suffix_of_last_ne h (by decide) (by decide)

theorem doc_path_ne_metaPath {e : VEntry} {b2 : List Char}
    (h : (".md").toList <:+ e.path) : e.path ≠ metaPathOf b2 := by
  have h2 : ("son").toList <:+ metaPathOf b2 :=
    List.IsSuffix.trans (by decide) (List.suffix_append b2 _)
  exact ne_of_last_ne h h2 (by decide) (by decide)

theorem artifact_not_md (p : List Char) : ¬ (".md").toList <:+ artifactPath p :=
  not_suffix_of_last_ne (List.suffix_append _ ((".ast.json").toList)) (by decide) (by decide)

theorem meta_not_artifact (base : List Char) :
    isPublishedArtifactName (nameOf (metaPathOf base)) = false := by
  rw [nameOf_metaPath]
  decide

theorem not_eligible_of_not_md {base : List Char} {e : VEntry}
    (h : ¬ (".md").toList <:+ e.path) : isEligibleDoc base e = false := by
  rw [Bool.eq_false_iff]
  intro htrue
  unfold isEligibleDoc at htrue
  simp only [Bool.and_eq_true] at htrue
  exact h (List.isSuffixOf_iff_suffix.mp htrue.1.1.1)

theorem eligible_md_suffix {base : List Char} {e : VEntry}
    (h : isEligibleDoc base e = true) : (".md").toList <:+ e.path := by
  unfold isEligibleDoc at h
  simp only [Bool.and_eq_true] at h
  exact List.isSuffixOf_iff_suffix.mp h.1.1.1

theorem eligible_not_draft {base : List Char} {e : VEntry}
    (h : isEligibleDoc base e = true) : ¬ (".draft.md").toList <:+ nameOf e.path := by
  unfold isEligibleDoc at h
  simp only [Bool.and_eq_true, Bool.not_eq_true'] at h
  intro hs
  have := h.1.2
  rw [Bool.eq_false_iff] at this
  exact this (List.isSuffixOf_iff_suffix.mpr hs)

theorem artifact_isPublishedArtifactName {base : List Char} {e : VEntry}
    (h : isEligibleDoc base e = true) :
    isPublishedArtifactName (nameOf (artifactPath e.path)) = true := by
  obtain ⟨y, hy⟩ := eligible_md_suffix h
  have hname : nameOf (artifactPath e.path) = nameOf y ++ (".ast.json").toList := by
    unfold artifactPath
    rw [← hy, stemOf_append_md]
    exact nameOf_append y (by decide)
  unfold isPublishedArtifactName
  rw [hname]
  have hsuf : ((".ast.json").toList).isSuffixOf (nameOf y ++ (".ast.json").toList) = true :=
    List.isSuffixOf_iff_suffix.mpr (List.suffix_append _ _)
  have hnd : ((".draft.ast.json").toList).isSuffixOf (nameOf y ++ (".ast.json").toList) = false := by
    rw [Bool.eq_false_iff]
    intro hs
    have hs2 := List.isSuffixOf_iff_suffix.mp hs
    rw [show (".draft.ast.json").toList = (".draft").toList ++ (".ast.json").toList from rfl] at hs2
    have hdr : (".draft").toList <:+ nameOf y := suffix_append_cancel.mp hs2
    have hdm : (".draft.md").toList <:+ nameOf e.path := by
      rw [← hy, nameOf_append y (by decide)]
      rw [show (".draft.md").toList = (".draft").toList ++ (".md").toList from rfl]
      exact suffix_append_cancel.mpr hdr
    exact eligible_not_draft h hdm
  rw [hsuf, hnd]
  rfl

/-! ## Rebuild idempotence machinery -/

theorem mem_docsOf_eligible {b : List Char} {w : VaultState} {e : VEntry}
    (h : e ∈ docsOf b w) : isEligibleDoc b e = true := by
  unfold docsOf at h
  exact List.of_mem_filter h

theorem afterDeletes_append (l₁ l₂ : VaultState) :
    afterArtifactDeletes (l₁ ++ l₂) = afterArtifactDeletes l₁ ++ afterArtifactDeletes l₂ :=
  List.filter_append _ _

theorem docsOf_append (b : List Char) (l₁ l₂ : VaultState) :
    docsOf b (l₁ ++ l₂) = docsOf b l₁ ++ docsOf b l₂ :=
  List.filter_append _ _

theorem filter_q_arts (baseFolder : List Char) (docs : List VEntry)
    (mk : VEntry → VEntry) (hmk : ∀ e, (mk e).path = artifactPath e.path) :
    (docs.map mk).filter (fun e => !(e.path == metaPathOf baseFolder)) = docs.map mk := by
  rw [List.filter_eq_self]
  intro a ha
  rw [List.mem_map] at ha
  obtain ⟨e, he, rfl⟩ := ha
  simp only [Bool.not_eq_true', beq_eq_false_iff_ne, ne_eq, hmk]
  exact artifactPath_ne_metaPath _ _

theorem filter_q_idem (baseFolder : List Char) (w : VaultState) :
    (w.filter (fun e => !(e.path == metaPathOf baseFolder))).filter
      (fun e => !(e.path == metaPathOf baseFolder))
    = w.filter (fun e => !(e.path == metaPathOf baseFolder)) := by
  rw [List.filter_eq_self]
  intro a ha
  rw [List.mem_filter] at ha
  exact ha.2

theorem afterDeletes_filter_q (baseFolder : List Char) (vs : VaultState) :
    afterArtifactDeletes
        ((afterArtifactDeletes vs).filter (fun e => !(e.path == metaPathOf baseFolder)))
      = (afterArtifactDeletes vs).filter (fun e => !(e.path == metaPathOf baseFolder)) := by
  conv in afterArtifactDeletes ((afterArtifactDeletes vs).filter _) =>
    rw [show afterArtifactDeletes
        ((afterArtifactDeletes vs).filter (fun e => !(e.path == metaPathOf baseFolder)))
      = ((afterArtifactDeletes vs).filter
          (fun e => !(e.path == metaPathOf baseFolder))).filter
          (fun e => !isPublishedArtifactName (nameOf e.path)) from rfl]
  rw [List.filter_eq_self]
  intro a ha
  rw [List.mem_filter] at ha
  have h1 : a ∈ vs.filter (fun e => !isPublishedArtifactName (nameOf e.path)) := ha.1
  rw [List.mem_filter] at h1
  exact h1.2

theorem afterDeletes_arts (baseFolder : List Char) (docs : List VEntry)
    (hdocs : ∀ e ∈ docs, isEligibleDoc baseFolder e = true) (mk : VEntry → VEntry)
    (hmk : ∀ e, (mk e).path = artifactPath e.path) :
    afterArtifactDeletes (docs.map mk) = [] := by
  rw [show afterArtifactDeletes (docs.map mk)
      = (docs.map mk).filter (fun e => !isPublishedArtifactName (nameOf e.path)) from rfl]
  rw [List.filter_eq_nil_iff]
  intro a ha
  rw [List.mem_map] at ha
  obtain ⟨e, he, rfl⟩ := ha
  simp only [Bool.not_eq_true', Bool.not_eq_false, hmk]
  exact artifact_isPublishedArtifactName (hdocs e he)

theorem afterDeletes_meta_single (baseFolder : List Char) (c : List Char) (t : Int) :
    afterArtifactDeletes [⟨metaPathOf baseFolder, c, t⟩]
      = [⟨metaPathOf baseFolder, c, t⟩] := by
  rw [show afterArtifactDeletes [(⟨metaPathOf baseFolder, c, t⟩ : VEntry)]
      = ([(⟨metaPathOf baseFolder, c, t⟩ : VEntry)]).filter
          (fun e => !isPublishedArtifactName (nameOf e.path)) from rfl]
  have hp : (!isPublishedArtifactName (nameOf (metaPathOf baseFolder))) = true := by
    rw [meta_not_artifact]
    rfl
  simp [List.filter_cons, hp]

theorem docsOf_filter_q (baseFolder : List Char) (w : VaultState) :
    docsOf baseFolder (w.filter (fun e => !(e.path == metaPathOf baseFolder)))
      = docsOf baseFolder w := by
  rw [show docsOf baseFolder (w.filter (fun e => !(e.path == metaPathOf baseFolder)))
      = (w.filter (fun e => !(e.path == metaPathOf baseFolder))).filter
          (isEligibleDoc baseFolder) from rfl]
  rw [show docsOf baseFolder w = w.filter (isEligibleDoc baseFolder) from rfl]
  rw [List.filter_filter]
  apply List.filter_congr
  intro e he
  by_cases helig : isEligibleDoc baseFolder e = true
  · have hne : e.path ≠ metaPathOf baseFolder :=
      doc_path_ne_metaPath (eligible_md_suffix helig)
    simp [helig, hne]
  · simp only [Bool.not_eq_true] at helig
    simp [helig]

theorem docsOf_meta_single (baseFolder b2 : List Char) (c : List Char) (t : Int) :
    docsOf baseFolder [⟨metaPathOf b2, c, t⟩] = [] := by
  rw [show docsOf baseFolder [(⟨metaPathOf b2, c, t⟩ : VEntry)]
      = ([(⟨metaPathOf b2, c, t⟩ : VEntry)]).filter (isEligibleDoc baseFolder) from rfl]
  have hp : isEligibleDoc baseFolder (⟨metaPathOf b2, c, t⟩ : VEntry) = false :=
    not_eligible_of_not_md (md_not_suffix_metaPath b2)
  simp [List.filter_cons, hp]

theorem rebuild_contents_idem (render : VEntry → List Char) (toRecord : VEntry → ExportRec)
    (serialize : AggregateIndex → List Char) (baseFolder : List Char)
    (now1 now2 : Int) (vs : VaultState) :
    contentsOf (rebuildState render toRecord serialize baseFolder now2
        (rebuildState render toRecord serialize baseFolder now1 vs))
      = contentsOf (rebuildState render toRecord serialize baseFolder now1 vs) := by
  have hR1' : rebuildState render toRecord serialize baseFolder now1 vs
      = ((afterArtifactDeletes vs).filter (fun e => !(e.path == metaPathOf baseFolder))
          ++ (docsOf baseFolder (afterArtifactDeletes vs)).map
              (fun e => ({ path := artifactPath e.path, content := render e,
                           mtime := now1 } : VEntry)))
        ++ [⟨metaPathOf baseFolder,
             serialize (rebuildIndex
               ((docsOf baseFolder (afterArtifactDeletes vs)).map toRecord)), now1⟩] := by
    rw [show rebuildState render toRecord serialize baseFolder now1 vs
        = ((afterArtifactDeletes vs
              ++ (docsOf baseFolder (afterArtifactDeletes vs)).map
                  (fun e => ({ path := artifactPath e.path, content := render e,
                               mtime := now1 } : VEntry))).filter
            (fun e => !(e.path == metaPathOf baseFolder)))
          ++ [⟨metaPathOf baseFolder,
               serialize (rebuildIndex
                 ((docsOf baseFolder (afterArtifactDeletes vs)).map toRecord)), now1⟩]
        from rfl]
    rw [List.filter_append, filter_q_arts baseFolder _ _ (fun e => rfl)]
  have hA : afterArtifactDeletes (rebuildState render toRecord serialize baseFolder now1 vs)
      = (afterArtifactDeletes vs).filter (fun e => !(e.path == metaPathOf baseFolder))
        ++ [⟨metaPathOf baseFolder,
             serialize (rebuildIndex
               ((docsOf baseFolder (afterArtifactDeletes vs)).map toRecord)), now1⟩] := by
    rw [hR1', afterDeletes_append, afterDeletes_append, afterDeletes_filter_q,
      afterDeletes_arts baseFolder _ (fun e he => mem_docsOf_eligible he) _ (fun e => rfl),
      afterDeletes_meta_single, List.append_nil]
  have hdocs2 : docsOf baseFolder
      (afterArtifactDeletes (rebuildState render toRecord serialize baseFolder now1 vs))
      = docsOf baseFolder (afterArtifactDeletes vs) := by
    rw [hA, docsOf_append, docsOf_filter_q, docsOf_meta_single, List.append_nil]
  have hR2 : rebuildState render toRecord serialize baseFolder now2
      (rebuildState render toRecord serialize baseFolder now1 vs)
      = ((afterArtifactDeletes vs).filter (fun e => !(e.path == metaPathOf baseFolder))
          ++ (docsOf baseFolder (afterArtifactDeletes vs)).map
              (fun e => ({ path := artifactPath e.path, content := render e,
                           mtime := now2 } : VEntry)))
        ++ [⟨metaPathOf baseFolder,
             serialize (rebuildIndex
               ((docsOf baseFolder (afterArtifactDeletes vs)).map toRecord)), now2⟩] := by
    rw [show rebuildState render toRecord serialize baseFolder now2
        (rebuildState render toRecord serialize baseFolder now1 vs)
        = ((afterArtifactDeletes (rebuildState render toRecord serialize baseFolder now1 vs)
              ++ (docsOf baseFolder
                    (afterArtifactDeletes
                      (rebuildState render toRecord serialize baseFolder now1 vs))).map
                  (fun e => ({ path := artifactPath e.path, content := render e,
                               mtime := now2 } : VEntry))).filter
            (fun e => !(e.path == metaPathOf baseFolder)))
          ++ [⟨metaPathOf baseFolder,
               serialize (rebuildIndex
                 ((docsOf baseFolder
                     (afterArtifactDeletes
                       (rebuildState render toRecord serialize baseFolder now1 vs))).map
                   toRecord)), now2⟩]
        from rfl]
    rw [hdocs2, hA]
    rw [List.filter_append, List.filter_append, filter_q_idem,
      filter_q_arts baseFolder _ _ (fun e => rfl)]
    have hm : ([(⟨metaPathOf baseFolder,
          serialize (rebuildIndex
            ((docsOf baseFolder (afterArtifactDeletes vs)).map toRecord)), now1⟩ : VEntry)]).filter
        (fun e => !(e.path == metaPathOf baseFolder)) = [] := by
      simp [List.filter_cons]
    rw [hm, List.append_nil]
  rw [hR2, hR1']
  unfold contentsOf
  rw [List.map_append, List.map_append, List.map_append, List.map_append,
    List.map_map, List.map_map]
  rfl

theorem publish_meta_idem {m : AggregateIndex} {r : ExportRec}
    (hnd : m.files.Pairwise (fun a b => a.path ≠ b.path)) :
    saveAsPublishedMeta (saveAsPublishedMeta m r) r = saveAsPublishedMeta m r := by
  have hfiles : (saveAsPublishedMeta m r).files = sortFiles (upsertFiles m.files r) := rfl
  have hmem : r ∈ (saveAsPublishedMeta m r).files := by
    rw [hfiles]
    exact (sortFiles_perm _).mem_iff.mpr (mem_upsert_self _ _)
  have huniq : ∀ x ∈ (saveAsPublishedMeta m r).files, x.path = r.path → x = r := by
    intro x hx hp
    rw [hfiles] at hx
    have hx2 : x ∈ upsertFiles m.files r := (sortFiles_perm _).mem_iff.mp hx
    rcases mem_upsert_of_pairwise hnd x hx2 with h | h
    · exact h
    · exact absurd hp h.2
  have hup : upsertFiles (saveAsPublishedMeta m r).files r = (saveAsPublishedMeta m r).files :=
    upsert_eq_self hmem huniq
  have hsort : sortFiles (saveAsPublishedMeta m r).files = (saveAsPublishedMeta m r).files := by
    rw [hfiles]
    exact sortFiles_of_sorted (sortFiles_sorted _)
  show (⟨sortFiles (upsertFiles (saveAsPublishedMeta m r).files r),
        buildTagIndex (sortFiles (upsertFiles (saveAsPublishedMeta m r).files r))⟩
      : AggregateIndex) = saveAsPublishedMeta m r
  rw [hup, hsort]
  have htags : buildTagIndex (saveAsPublishedMeta m r).files = (saveAsPublishedMeta m r).tags :=
    rfl
  rw [htags]

/-! ## C9 — re-running with unchanged sources is idempotent -/

/-- C9: re-running `generateAst`/`_generateAst` on the state it produced
(sources unchanged; only the freshly written artifact timestamps differ)
yields byte-identical artifacts and a byte-identical persisted index, for any
deterministic per-document serializers; and re-running the `saveAsPublished`
index update with the same re-assembled record is a no-op on the index
(given the maintained invariant that indexed paths are pairwise distinct),
the record order being fixed by the unchanged modification times. -/
theorem c9_idempotence :
    (∀ (render : VEntry → List Char) (toRecord : VEntry → ExportRec)
       (serialize : AggregateIndex → List Char) (baseFolder : List Char)
       (now1 now2 : Int) (vs : VaultState),
      contentsOf (rebuildState render toRecord serialize baseFolder now2
          (rebuildState render toRecord serialize baseFolder now1 vs))
        = contentsOf (rebuildState render toRecord serialize baseFolder now1 vs)) ∧
    (∀ (m : AggregateIndex) (r : ExportRec),
      m.files.Pairwise (fun a b => a.path ≠ b.path) →
        saveAsPublishedMeta (saveAsPublishedMeta m r) r = saveAsPublishedMeta m r) :=
  ⟨rebuild_contents_idem, fun _ _ hnd => publish_meta_idem hnd⟩

/-- Closed instance of `c9_idempotence`: a one-document vault rebuilt twice,
and a double publish into an empty index. -/
theorem c9_idempotence_witness :
    (contentsOf (rebuildState (fun _ => ("x").toList)
        (fun e => ⟨e.path, [], none, [], e.mtime⟩) (fun _ => ("y").toList) (("b").toList) 2
        (rebuildState (fun _ => ("x").toList) (fun e => ⟨e.path, [], none, [], e.mtime⟩)
          (fun _ => ("y").toList) (("b").toList) 1
          [⟨("b/doc.md").toList, ("hello").toList, 7⟩]))
      = contentsOf (rebuildState (fun _ => ("x").toList)
          (fun e => ⟨e.path, [], none, [], e.mtime⟩) (fun _ => ("y").toList) (("b").toList) 1
          [⟨("b/doc.md").toList, ("hello").toList, 7⟩])) ∧
    saveAsPublishedMeta (saveAsPublishedMeta emptyMeta
        ⟨("p").toList, [], none, [], 3⟩) ⟨("p").toList, [], none, [], 3⟩
      = saveAsPublishedMeta emptyMeta ⟨("p").toList, [], none, [], 3⟩ :=
  ⟨c9_idempotence.1 _ _ _ _ 1 2 _, c9_idempotence.2 _ _ (by simp [emptyMeta])⟩

/-! ## Header scanner proofs -/

theorem headerLoop_skip (md : List Char) (fuel : Nat) (fs : Int) (hfs : 0 ≤ fs) :
    ∀ (k i : Nat), (∀ j, i ≤ j → j < i + k → closePat md j = false) →
    headerLoop md (k + fuel) i 3 fs = headerLoop md fuel (i + k) 3 fs := by
  intro k
  induction k with
  | zero => simp
  | succ k ih =>
    intro i h
    rw [show k + 1 + fuel = (k + fuel) + 1 from by omega]
    have h0 : closePat md i = false := h i (le_refl _) (by omega)
    have hfs' : ¬ fs < 0 := not_lt.mpr hfs
    simp only [headerLoop, if_neg hfs', h0, Bool.false_eq_true, if_false]
    norm_num
    rw [ih (i + 1) (fun j hj1 hj2 => h j (by omega) (by omega))]
    rw [show i + 1 + k = i + (k + 1) from by omega]

theorem getC_cons_zero (c : Char) (rest : List Char) : getC (c :: rest) 0 = some c := by
  simp [getC]

theorem getC_cons_succ (c : Char) (rest : List Char) (n : Nat) :
    getC (c :: rest) ((n : Int) + 1) = getC rest n := by
  unfold getC
  have h1 : ¬ ((n : Int) + 1 < 0) := by omega
  have h2 : ¬ ((n : Int) < 0) := by omega
  rw [if_neg h1, if_neg h2]
  rw [show ((n : Int) + 1).toNat = ((n : Int)).toNat + 1 from by omega]
  rw [show ((n : Int)).toNat = n from by omega]
  exact List.getElem?_cons_succ

theorem headerLoop_start (rest : List Char) :
    extractFrontmatter ('-' :: '-' :: '-' :: rest)
      = headerLoop ('-' :: '-' :: '-' :: rest) rest.length 3 3 (-1) := by
  unfold extractFrontmatter
  rw [show ('-' :: '-' :: '-' :: rest).length = rest.length + 3 from by simp]
  have g0 : getC ('-' :: '-' :: '-' :: rest) 0 = some '-' := getC_cons_zero _ _
  have g1 : getC ('-' :: '-' :: '-' :: rest) 1 = some '-' := by
    rw [show (1 : Int) = ((0 : Nat) : Int) + 1 from by norm_num, getC_cons_succ]
    exact getC_cons_zero _ _
  have g2 : getC ('-' :: '-' :: '-' :: rest) 2 = some '-' := by
    rw [show (2 : Int) = ((1 : Nat) : Int) + 1 from by norm_num, getC_cons_succ]
    rw [show ((1 : Nat) : Int) = ((0 : Nat) : Int) + 1 from by norm_num, getC_cons_succ]
    exact getC_cons_zero _ _
  simp only [headerLoop]
  norm_num [g0, g1, g2]

theorem closePat_three_false {md : List Char} (h2 : getC md 2 = some '-') :
    closePat md 3 = false := by
  unfold closePat
  rw [show ((3 : Nat) : Int) - 1 = 2 from by norm_num, h2]
  simp [lineBoundaryOpt]

theorem headerLoop_i3 (md : List Char) (fuel : Nat) (h2 : getC md 2 = some '-') :
    headerLoop md (fuel + 1) 3 3 (-1) = headerLoop md fuel 4 3 3 := by
  simp only [headerLoop]
  norm_num [closePat_three_false h2]

theorem headerLoop_hit (md : List Char) (fuel i : Nat) (hc : closePat md i = true) :
    headerLoop md (fuel + 1) i 3 3 = .parsed (jsSlice md 3 ((i : Int) - 1)) := by
  simp only [headerLoop]
  norm_num [hc]

theorem getC_cons3_one (a b c : Char) (rest : List Char) :
    getC (a :: b :: c :: rest) 1 = some b := by
  rw [show (1 : Int) = ((0 : Nat) : Int) + 1 from by norm_num, getC_cons_succ]
  exact getC_cons_zero _ _

theorem getC_cons3_two (a b c : Char) (rest : List Char) :
    getC (a :: b :: c :: rest) 2 = some c := by
  rw [show (2 : Int) = ((1 : Nat) : Int) + 1 from by norm_num, getC_cons_succ]
  rw [show ((1 : Nat) : Int) = ((0 : Nat) : Int) + 1 from by norm_num, getC_cons_succ]
  exact getC_cons_zero _ _

theorem extractFrontmatter_no_open {md : List Char} (h : md.take 3 ≠ ['-', '-', '-']) :
    extractFrontmatter md = .empty := by
  match md with
  | [] => rfl
  | [a] =>
    show headerLoop [a] 1 0 0 (-1) = .empty
    simp only [headerLoop]
    norm_num
  | [a, b] =>
    show headerLoop [a, b] 2 0 0 (-1) = .empty
    simp only [headerLoop]
    norm_num
  | a :: b :: c :: rest =>
    have htake : ¬ (a = '-' ∧ b = '-' ∧ c = '-') := by
      intro hand
      obtain ⟨h1, h2, h3⟩ := hand
      subst h1
      subst h2
      subst h3
      simp at h
    unfold extractFrontmatter
    rw [show (a :: b :: c :: rest).length = rest.length + 3 from by simp]
    by_cases ha : a = '-'
    · subst ha
      by_cases hb : b = '-'
      · subst hb
        by_cases hc : c = '-'
        · exact absurd ⟨rfl, rfl, hc⟩ htake
        · have g0 : (getC ('-' :: '-' :: c :: rest) 0 == some '-') = true := by
            rw [getC_cons_zero]
            simp
          have g1 : (getC ('-' :: '-' :: c :: rest) 1 == some '-') = true := by
            rw [getC_cons3_one]
            simp
          have hc' : (getC ('-' :: '-' :: c :: rest) 2 == some '-') = false := by
            rw [getC_cons3_two]
            simp [hc]
          simp only [headerLoop]
          norm_num [g0, g1, hc']
      · have g0 : (getC ('-' :: b :: c :: rest) 0 == some '-') = true := by
          rw [getC_cons_zero]
          simp
        have hb' : (getC ('-' :: b :: c :: rest) 1 == some '-') = false := by
          rw [getC_cons3_one]
          simp [hb]
        simp only [headerLoop]
        norm_num [g0, hb']
    · have ha' : (getC (a :: b :: c :: rest) 0 == some '-') = false := by
        rw [getC_cons_zero]
        simp [ha]
      simp only [headerLoop]
      norm_num [ha']

theorem getC_some_lt {md : List Char} {i : Nat} {x : Char}
    (h : getC md (i : Int) = some x) : i < md.length := by
  unfold getC at h
  rw [if_neg (by omega : ¬ ((i : Int) < 0))] at h
  rw [show ((i : Int)).toNat = i from by omega] at h
  rw [List.getElem?_eq_some_iff] at h
  exact h.1

theorem take3_shape {md : List Char} (h : md.take 3 = ['-', '-', '-']) :
    ∃ rest, md = '-' :: '-' :: '-' :: rest := by
  match md with
  | [] => simp at h
  | [a] => simp at h
  | [a, b] => simp at h
  | a :: b :: c :: rest =>
    simp [List.take] at h
    obtain ⟨h1, h2, h3⟩ := h
    subst h1
    subst h2
    subst h3
    exact ⟨rest, rfl⟩

/-! ## C3 — frontmatter scan -/

/-- C3: `extractFrontmatter` requires the document to open with three dashes
(anything else, including a document shorter than three characters, yields an
empty result without an error); once opened, it returns the slice between
position 3 and the first index `i ≥ 3` at which the closing detection fires
(`md[i] = '-'` with a line-boundary character at `i-1` and dashes at `i+1`,
`i+2`), the line-boundary character itself excluded from the slice; and when
no such index exists the scan runs to end of input and yields an empty
result. -/
theorem c3_frontmatter_scan :
    (∀ (md : List Char) (i : Nat),
      md.take 3 = ['-', '-', '-'] → 3 ≤ i → closePat md i = true →
      (∀ j, 3 ≤ j → j < i → closePat md j = false) →
      extractFrontmatter md = .parsed (jsSlice md 3 ((i : Int) - 1))) ∧
    (∀ md : List Char, md.take 3 ≠ ['-', '-', '-'] → extractFrontmatter md = .empty) ∧
    (∀ md : List Char, md.take 3 = ['-', '-', '-'] →
      (∀ j, 3 ≤ j → closePat md j = false) → extractFrontmatter md = .empty) := by
  refine ⟨?_, ?_, ?_⟩
  · intro md i htake h3i hc hmin
    obtain ⟨rest, rfl⟩ := take3_shape htake
    rw [headerLoop_start rest]
    have g2 : getC ('-' :: '-' :: '-' :: rest) 2 = some '-' := getC_cons3_two _ _ _ _
    have hi4 : 4 ≤ i := by
      rcases Nat.lt_or_ge i 4 with h4 | h4
      · have hieq : i = 3 := by omega
        rw [hieq] at hc
        rw [closePat_three_false g2] at hc
        cases hc
      · exact h4
    have hlen : i < ('-' :: '-' :: '-' :: rest).length := by
      have hg : getC ('-' :: '-' :: '-' :: rest) (i : Int) = some '-' := by
        unfold closePat at hc
        simp only [Bool.and_eq_true, beq_iff_eq] at hc
        exact hc.1.1.1
      exact getC_some_lt hg
    have hlen' : i < rest.length + 3 := by
      simpa using hlen
    rw [show rest.length = (rest.length - 1) + 1 from by omega]
    rw [headerLoop_i3 _ _ g2]
    rw [show rest.length - 1 = (i - 4) + ((rest.length + 3 - i - 1) + 1) from by omega]
    rw [headerLoop_skip ('-' :: '-' :: '-' :: rest) _ 3 (by omega) (i - 4) 4
      (fun j hj1 hj2 => hmin j (by omega) (by omega))]
    rw [show 4 + (i - 4) = i from by omega]
    exact headerLoop_hit _ _ _ hc
  · intro md h
    exact extractFrontmatter_no_open h
  · intro md htake hnone
    obtain ⟨rest, rfl⟩ := take3_shape htake
    rw [headerLoop_start rest]
    have g2 : getC ('-' :: '-' :: '-' :: rest) 2 = some '-' := getC_cons3_two _ _ _ _
    match rest with
    | [] => rfl
    | r0 :: rs =>
      rw [show (r0 :: rs).length = rs.length + 1 from by simp]
      rw [headerLoop_i3 _ _ g2]
      rw [show rs.length = rs.length + 0 from by omega]
      rw [headerLoop_skip ('-' :: '-' :: '-' :: r0 :: rs) 0 3 (by omega) rs.length 4
        (fun j hj1 hj2 => hnone j (by omega))]
      rfl

/-- Closed instance of `c3_frontmatter_scan` on the document
`---\na: b\n---\n` (closing triad at index 9, content slice `\na: b`), on a
document with a malformed opening, and on a document with no closing triad. -/
theorem c3_frontmatter_scan_witness :
    extractFrontmatter (("---\na: b\n---\n").toList)
      = .parsed (("\na: b").toList) ∧
    extractFrontmatter (("--x").toList) = .empty ∧
    extractFrontmatter (("---\nabc").toList) = .empty := by
  refine ⟨?_, ?_, ?_⟩
  · have h := c3_frontmatter_scan.1 (("---\na: b\n---\n").toList) 9 (by decide) (by decide)
      (by decide) (by decide)
    rw [h]
    rfl
  · exact c3_frontmatter_scan.2.1 _ (by decide)
  · exact c3_frontmatter_scan.2.2 _ (by decide) (fun j hj => by
      rcases Nat.lt_or_ge j 7 with hj7 | hj7
      · interval_cases j <;> decide
      · unfold closePat
        rw [show getC (("---\nabc").toList) (j : Int) = none from by
          unfold getC
          rw [if_neg (by omega : ¬ ((j : Int) < 0))]
          apply List.getElem?_eq_none
          simp only [show (("---\nabc").toList).length = 7 from by decide]
          omega]
        rfl)

/-! ## Footer scanner proofs -/

theorem ticksIn_self (md : List Char) (a : Nat) : ticksIn md a a = 0 := by
  simp [ticksIn]

theorem ticksIn_succ_top (md : List Char) (a b : Nat) (h : a ≤ b) :
    ticksIn md a (b + 1)
      = ticksIn md a b + (if getC md (b : Int) == some tickChar then 1 else 0) := by
  unfold ticksIn
  rw [show b + 1 - a = (b - a) + 1 from by omega]
  rw [List.range'_concat]
  rw [List.countP_append]
  rw [show a + 1 * (b - a) = b from by omega]
  simp [List.countP_cons]

theorem ticksIn_eq_zero {md : List Char} {a b : Nat}
    (h : ∀ j, a ≤ j → j < b → (getC md (j : Int) == some tickChar) = false) :
    ticksIn md a b = 0 := by
  unfold ticksIn
  rw [List.countP_eq_zero]
  intro j hj
  rw [List.mem_range'_1] at hj
  rw [h j hj.1 (by omega)]
  simp

theorem footerAllowed_tick : footerAllowedOpt (some tickChar) = true := by
  simp [footerAllowedOpt]

theorem footerLoop_skip_pre (md : List Char) :
    ∀ (k n cnt : Nat) (se : Int),
    (∀ j, n ≤ j → j < n + k → footerAllowedOpt (getC md (j : Int)) = true) →
    cnt + ticksIn md n (n + k) < 3 →
    footerLoop md (n + k) false cnt se
      = footerLoop md n false (cnt + ticksIn md n (n + k)) se := by
  intro k
  induction k with
  | zero =>
    intro n cnt se hall hcnt
    rw [Nat.add_zero, ticksIn_self, Nat.add_zero]
  | succ k ih =>
    intro n cnt se hall hcnt
    rw [show n + (k + 1) = (n + k) + 1 from by omega] at hcnt ⊢
    have hj : footerAllowedOpt (getC md ((n + k : Nat) : Int)) = true :=
      hall (n + k) (by omega) (by omega)
    by_cases ht : (getC md ((n + k : Nat) : Int) == some tickChar) = true
    · have htick : ticksIn md n (n + k + 1) = ticksIn md n (n + k) + 1 := by
        rw [ticksIn_succ_top md n (n + k) (by omega), ht]
        simp
      have hcnt1 : cnt + 1 + ticksIn md n (n + k) < 3 := by
        rw [htick] at hcnt
        omega
      have hne3 : (cnt + 1 == 3) = false := by
        have h3 : cnt + 1 ≠ 3 := by omega
        simpa using h3
      simp only [footerLoop, Bool.not_false, Bool.true_and, hj, if_true, ht, hne3,
        Bool.false_eq_true, if_false]
      rw [ih n (cnt + 1) se (fun j h1 h2 => hall j h1 (by omega)) hcnt1]
      rw [htick]
      rw [show cnt + 1 + ticksIn md n (n + k) = cnt + (ticksIn md n (n + k) + 1) from by omega]
    · have ht' : (getC md ((n + k : Nat) : Int) == some tickChar) = false := by
        simpa using ht
      have htick : ticksIn md n (n + k + 1) = ticksIn md n (n + k) := by
        rw [ticksIn_succ_top md n (n + k) (by omega), ht']
        simp
      have hcnt1 : cnt + ticksIn md n (n + k) < 3 := by
        rw [htick] at hcnt
        omega
      simp only [footerLoop, Bool.not_false, Bool.true_and, hj, if_true, ht,
        Bool.false_eq_true, if_false]
      rw [ih n cnt se (fun j h1 h2 => hall j h1 (by omega)) hcnt1]
      rw [htick]

theorem footerLoop_abort (md : List Char) (i cnt : Nat) (se : Int)
    (hbad : footerAllowedOpt (getC md (i : Int)) = false) :
    footerLoop md (i + 1) false cnt se = .empty := by
  simp only [footerLoop, Bool.not_false, Bool.true_and, hbad, Bool.false_eq_true, if_false]
  simp

theorem getC_append_right_ge (P B : List Char) (j : Nat) (h : P.length ≤ j) :
    getC (P ++ B) (j : Int) = getC B ((j - P.length : Nat) : Int) := by
  unfold getC
  rw [if_neg (by omega : ¬ ((j : Int) < 0))]
  rw [if_neg (by omega : ¬ (((j - P.length : Nat) : Int) < 0))]
  rw [show ((j : Int)).toNat = j from by omega]
  rw [show (((j - P.length : Nat) : Int)).toNat = j - P.length from by omega]
  exact List.getElem?_append_right h

theorem getC_append_left_lt (P B : List Char) (j : Nat) (h : j < P.length) :
    getC (P ++ B) (j : Int) = getC P (j : Int) := by
  unfold getC
  rw [if_neg (by omega : ¬ ((j : Int) < 0))]
  rw [if_neg (by omega : ¬ ((j : Int) < 0))]
  rw [show ((j : Int)).toNat = j from by omega]
  rw [List.getElem?_append]
  rw [if_pos h]

theorem getC_some_mem {B : List Char} {k : Nat} {c : Char}
    (h : getC B (k : Int) = some c) : c ∈ B := by
  unfold getC at h
  rw [if_neg (by omega : ¬ ((k : Int) < 0))] at h
  rw [show ((k : Int)).toNat = k from by omega] at h
  rw [List.getElem?_eq_some_iff] at h
  obtain ⟨hk, rfl⟩ := h
  exact List.getElem_mem hk

theorem getC_in_range {B : List Char} {k : Nat} (h : k < B.length) :
    ∃ c, getC B (k : Int) = some c ∧ c ∈ B := by
  unfold getC
  rw [if_neg (by omega : ¬ ((k : Int) < 0))]
  rw [show ((k : Int)).toNat = k from by omega]
  exact ⟨B[k], by simp, List.getElem_mem h⟩

theorem footerLoop_skip_entered (md : List Char) :
    ∀ (k n cnt : Nat) (se : Int),
    (∀ j, n ≤ j → j < n + k → openFencePat md j = false) →
    footerLoop md (n + k) true cnt se = footerLoop md n true cnt se := by
  intro k
  induction k with
  | zero =>
    intro n cnt se h
    rw [Nat.add_zero]
  | succ k ih =>
    intro n cnt se h
    rw [show n + (k + 1) = (n + k) + 1 from by omega]
    have hp : openFencePat md (n + k) = false := h (n + k) (by omega) (by omega)
    simp only [footerLoop, Bool.not_true, Bool.false_and, Bool.false_eq_true, if_false, hp]
    exact ih n cnt se (fun j h1 h2 => h j h1 (by omega))

theorem footerLoop_enter (md : List Char) (q : Nat) (se0 : Int)
    (h0 : getC md (q : Int) = some tickChar)
    (h1 : getC md ((q + 1 : Nat) : Int) = some tickChar)
    (h2 : getC md ((q + 2 : Nat) : Int) = some tickChar) :
    footerLoop md (q + 3) false 0 se0 = footerLoop md q true 3 ((q : Int) - 1) := by
  have s2 : footerLoop md ((q + 2) + 1) false 0 se0 = footerLoop md (q + 2) false 1 se0 := by
    simp only [footerLoop, Bool.not_false, Bool.true_and, h2, footerAllowed_tick, if_true]
    norm_num
  have s1 : footerLoop md ((q + 1) + 1) false 1 se0 = footerLoop md (q + 1) false 2 se0 := by
    simp only [footerLoop, Bool.not_false, Bool.true_and, h1, footerAllowed_tick, if_true]
    norm_num
  have s0 : footerLoop md (q + 1) false 2 se0 = footerLoop md q true 3 ((q : Int) - 1) := by
    simp only [footerLoop, Bool.not_false, Bool.true_and, h0, footerAllowed_tick, if_true]
    norm_num
  rw [show q + 3 = (q + 2) + 1 from by omega, s2]
  rw [show q + 2 = (q + 1) + 1 from by omega, s1]
  exact s0

theorem footerLoop_hit_fence (md : List Char) (i cnt : Nat) (se : Int)
    (hf : openFencePat md i = true) :
    footerLoop md (i + 1) true cnt se = .parsed (jsSlice md ((i : Int) + 1) se) := by
  simp only [footerLoop, Bool.not_true, Bool.false_and, Bool.false_eq_true, if_false, hf,
    if_true]

theorem extractSettingsFooter_abort {md : List Char} {i : Nat}
    (hlen : i < md.length)
    (hbad : footerAllowedOpt (getC md (i : Int)) = false)
    (hall : ∀ j, i < j → j < md.length → footerAllowedOpt (getC md (j : Int)) = true)
    (hticks : ticksIn md (i + 1) md.length < 3) :
    extractSettingsFooter md = .empty := by
  unfold extractSettingsFooter
  rw [show md.length = (i + 1) + (md.length - i - 1) from by omega]
  rw [footerLoop_skip_pre md (md.length - i - 1) (i + 1) 0 (-1)
    (fun j hj1 hj2 => hall j (by omega) (by omega))
    (by
      rw [show (i + 1) + (md.length - i - 1) = md.length from by omega]
      simpa using hticks)]
  exact footerLoop_abort md i _ _ hbad

theorem footerAllowed_of_w {c : Char} (h : c = '%' ∨ c = '\n' ∨ c = '\r') :
    footerAllowedOpt (some c) = true := by
  rcases h with h | h | h <;> subst h <;> rfl

theorem w_not_tick {c : Char} (h : c = '%' ∨ c = '\n' ∨ c = '\r') :
    (some c == some tickChar) = false := by
  rcases h with h | h | h <;> subst h <;> rfl

theorem extractSettingsFooter_parses (A C W : List Char) (nl : Char) {md : List Char}
    (hmd : md = A ++ nl :: ([tickChar, tickChar, tickChar]
      ++ (C ++ ([tickChar, tickChar, tickChar] ++ W))))
    (hnl : nl = '\n' ∨ nl = '\r')
    (hC : ∀ c ∈ C, c ≠ tickChar)
    (hW : ∀ c ∈ W, c = '%' ∨ c = '\n' ∨ c = '\r') :
    extractSettingsFooter md = .parsed C.dropLast := by
  have hlen : md.length = A.length + 8 + C.length + W.length - 1 := by
    rw [hmd]
    simp
    omega
  have hshapeW : md = (A ++ nl :: ([tickChar, tickChar, tickChar] ++ C)
      ++ [tickChar, tickChar, tickChar]) ++ W := by
    rw [hmd]
    simp
  have hlenPW : (A ++ nl :: ([tickChar, tickChar, tickChar] ++ C)
      ++ [tickChar, tickChar, tickChar]).length = A.length + 7 + C.length := by
    simp
    omega
  have hshapeQ : md = (A ++ nl :: ([tickChar, tickChar, tickChar] ++ C))
      ++ ([tickChar, tickChar, tickChar] ++ W) := by
    rw [hmd]
    simp
  have hlenPQ : (A ++ nl :: ([tickChar, tickChar, tickChar] ++ C)).length
      = A.length + 4 + C.length := by
    simp
    omega
  have hshapeC : md = (A ++ nl :: [tickChar, tickChar, tickChar])
      ++ (C ++ ([tickChar, tickChar, tickChar] ++ W)) := by
    rw [hmd]
    simp
  have hlenPC : (A ++ nl :: [tickChar, tickChar, tickChar]).length = A.length + 4 := by
    simp
  have hshapeT : md = (A ++ [nl]) ++ ([tickChar, tickChar, tickChar]
      ++ (C ++ ([tickChar, tickChar, tickChar] ++ W))) := by
    rw [hmd]
    simp
  have hlenPT : (A ++ [nl]).length = A.length + 1 := by
    simp
  have hshapeN : md = A ++ (nl :: ([tickChar, tickChar, tickChar]
      ++ (C ++ ([tickChar, tickChar, tickChar] ++ W)))) := hmd
  -- the three closing backticks
  have hq0 : getC md ((A.length + 4 + C.length : Nat) : Int) = some tickChar := by
    rw [hshapeQ, getC_append_right_ge _ _ _ (by rw [hlenPQ])]
    rw [hlenPQ, Nat.sub_self]
    exact getC_cons_zero _ _
  have hq1 : getC md ((A.length + 4 + C.length + 1 : Nat) : Int) = some tickChar := by
    rw [hshapeQ, getC_append_right_ge _ _ _ (by rw [hlenPQ]; omega)]
    rw [hlenPQ, show A.length + 4 + C.length + 1 - (A.length + 4 + C.length) = 1 from by omega]
    exact getC_cons3_one _ _ _ _
  have hq2 : getC md ((A.length + 4 + C.length + 2 : Nat) : Int) = some tickChar := by
    rw [hshapeQ, getC_append_right_ge _ _ _ (by rw [hlenPQ]; omega)]
    rw [hlenPQ, show A.length + 4 + C.length + 2 - (A.length + 4 + C.length) = 2 from by omega]
    exact getC_cons3_two _ _ _ _
  -- the W region is allowed and backtick-free
  have hallW : ∀ j, A.length + 7 + C.length ≤ j → j < (A.length + 7 + C.length) + W.length →
      footerAllowedOpt (getC md (j : Int)) = true := by
    intro j hj1 hj2
    have hg : getC md (j : Int) = getC W ((j - (A.length + 7 + C.length) : Nat) : Int) := by
      rw [hshapeW, getC_append_right_ge _ _ _ (by rw [hlenPW]; omega), hlenPW]
    obtain ⟨c, hc, hcm⟩ := getC_in_range
      (show j - (A.length + 7 + C.length) < W.length from by omega)
    rw [hg, hc]
    exact footerAllowed_of_w (hW c hcm)
  have hticksW : ticksIn md (A.length + 7 + C.length)
      ((A.length + 7 + C.length) + W.length) = 0 := by
    apply ticksIn_eq_zero
    intro j hj1 hj2
    have hg : getC md (j : Int) = getC W ((j - (A.length + 7 + C.length) : Nat) : Int) := by
      rw [hshapeW, getC_append_right_ge _ _ _ (by rw [hlenPW]; omega), hlenPW]
    obtain ⟨c, hc, hcm⟩ := getC_in_range
      (show j - (A.length + 7 + C.length) < W.length from by omega)
    rw [hg, hc]
    exact w_not_tick (hW c hcm)
  -- the C region has no opening-fence match
  have hnofence : ∀ j, A.length + 4 ≤ j → j < (A.length + 4) + C.length →
      openFencePat md j = false := by
    intro j hj1 hj2
    have hg : getC md (j : Int) = getC C ((j - (A.length + 4) : Nat) : Int) := by
      rw [hshapeC, getC_append_right_ge _ _ _ (by rw [hlenPC]; omega), hlenPC]
      rw [getC_append_left_lt _ _ _ (by omega)]
    obtain ⟨c, hc, hcm⟩ := getC_in_range (show j - (A.length + 4) < C.length from by omega)
    unfold openFencePat
    rw [hg, hc]
    have hcne : (some c == some tickChar) = false := by
      simp
      exact hC c hcm
    rw [hcne]
    rfl
  -- the opening fence fires at index A.length + 3
  have hfence : openFencePat md (A.length + 3) = true := by
    unfold openFencePat
    have f0 : getC md ((A.length + 3 : Nat) : Int) = some tickChar := by
      rw [hshapeT, show ((A.length + 3 : Nat) : Int) = ((A.length + 1 + 2 : Nat) : Int)
        from by push_cast; ring]
      rw [getC_append_right_ge _ _ _ (by rw [hlenPT]; omega), hlenPT]
      rw [show A.length + 1 + 2 - (A.length + 1) = 2 from by omega]
      exact getC_cons3_two _ _ _ _
    have f1 : getC md (((A.length + 3 : Nat) : Int) - 1) = some tickChar := by
      rw [show (((A.length + 3 : Nat) : Int) - 1) = ((A.length + 1 + 1 : Nat) : Int)
        from by push_cast; ring]
      rw [hshapeT, getC_append_right_ge _ _ _ (by rw [hlenPT]; omega), hlenPT]
      rw [show A.length + 1 + 1 - (A.length + 1) = 1 from by omega]
      exact getC_cons3_one _ _ _ _
    have f2 : getC md (((A.length + 3 : Nat) : Int) - 2) = some tickChar := by
      rw [show (((A.length + 3 : Nat) : Int) - 2) = ((A.length + 1 : Nat) : Int)
        from by push_cast; ring]
      rw [hshapeT, getC_append_right_ge _ _ _ (by rw [hlenPT]), hlenPT]
      rw [Nat.sub_self]
      exact getC_cons_zero _ _
    have f3 : getC md (((A.length + 3 : Nat) : Int) - 3) = some nl := by
      rw [show (((A.length + 3 : Nat) : Int) - 3) = ((A.length : Nat) : Int)
        from by push_cast; ring]
      rw [hshapeN, getC_append_right_ge _ _ _ (le_refl _), Nat.sub_self]
      exact getC_cons_zero _ _
    rw [f0, f1, f2, f3]
    rcases hnl with h | h <;> subst h <;> rfl
  -- run the scan
  unfold extractSettingsFooter
  rw [show md.length = ((A.length + 4 + C.length) + 3) + W.length from by omega]
  rw [footerLoop_skip_pre md W.length ((A.length + 4 + C.length) + 3) 0 (-1)
    (fun j h1 h2 => hallW j (by omega) (by omega))
    (by
      rw [show (A.length + 4 + C.length) + 3 = A.length + 7 + C.length from by omega]
      rw [hticksW]
      omega)]
  rw [show (A.length + 4 + C.length) + 3 = A.length + 7 + C.length from by omega]
  rw [hticksW]
  rw [show (A.length + 7 + C.length) = (A.length + 4 + C.length) + 3 from by omega]
  rw [footerLoop_enter md (A.length + 4 + C.length) (-1) hq0 hq1 hq2]
  rw [show A.length + 4 + C.length = (A.length + 4) + C.length from by omega]
  rw [footerLoop_skip_entered md C.length (A.length + 4) 3 _
    (fun j h1 h2 => hnofence j h1 h2)]
  rw [show A.length + 4 = (A.length + 3) + 1 from by omega]
  rw [footerLoop_hit_fence md (A.length + 3) 3 _ hfence]
  -- compute the slice
  congr 1
  unfold jsSlice jsIdx
  rw [if_neg (by omega : ¬ (((A.length + 3 : Nat) : Int) + 1 < 0))]
  rw [if_neg (by omega : ¬ ((((A.length + 3) + 1 + C.length : Nat) : Int) - 1 < 0))]
  rw [show (((A.length + 3 : Nat) : Int) + 1).toNat = A.length + 4 from by omega]
  rw [show ((((A.length + 3) + 1 + C.length : Nat) : Int) - 1).toNat = A.length + 3 + C.length
    from by omega]
  have hmin1 : min (A.length + 4) md.length = A.length + 4 := by omega
  have hmin2 : min (A.length + 3 + C.length) md.length = A.length + 3 + C.length := by omega
  rw [hmin1, hmin2]
  have hdrop : md.drop (A.length + 4) = C ++ ([tickChar, tickChar, tickChar] ++ W) := by
    rw [hshapeC, show A.length + 4 = (A ++ nl :: [tickChar, tickChar, tickChar]).length
      from by rw [hlenPC]]
    exact List.drop_left _ _
  show List.take ((A.length + 3 + C.length) - (A.length + 4)) (List.drop (A.length + 4) md)
    = C.dropLast
  rw [hdrop]
  rw [show A.length + 3 + C.length - (A.length + 4) = C.length - 1 from by omega]
  rw [List.take_append_of_le_length (by omega)]
  rw [List.dropLast_eq_take]

theorem getC_neg_one (md : List Char) : getC md (-1) = none := by
  simp [getC]

theorem extractSettingsFooter_open_at_start (C W : List Char) {md : List Char}
    (hmd : md = [tickChar, tickChar, tickChar]
      ++ (C ++ ([tickChar, tickChar, tickChar] ++ W)))
    (hC : ∀ c ∈ C, c ≠ tickChar)
    (hW : ∀ c ∈ W, c = '%' ∨ c = '\n' ∨ c = '\r') :
    extractSettingsFooter md = .undef := by
  have hlen : md.length = C.length + 6 + W.length := by
    rw [hmd]
    simp
    omega
  have hshapeW : md = ([tickChar, tickChar, tickChar] ++ C ++ [tickChar, tickChar, tickChar])
      ++ W := by
    rw [hmd]
    simp
  have hlenPW : ([tickChar, tickChar, tickChar] ++ C
      ++ [tickChar, tickChar, tickChar]).length = C.length + 6 := by
    simp
  have hshapeQ : md = ([tickChar, tickChar, tickChar] ++ C)
      ++ ([tickChar, tickChar, tickChar] ++ W) := by
    rw [hmd]
    simp
  have hlenPQ : ([tickChar, tickChar, tickChar] ++ C).length = C.length + 3 := by
    simp
  have hq0 : getC md ((C.length + 3 : Nat) : Int) = some tickChar := by
    rw [hshapeQ, getC_append_right_ge _ _ _ (by rw [hlenPQ])]
    rw [hlenPQ, Nat.sub_self]
    exact getC_cons_zero _ _
  have hq1 : getC md ((C.length + 3 + 1 : Nat) : Int) = some tickChar := by
    rw [hshapeQ, getC_append_right_ge _ _ _ (by rw [hlenPQ]; omega)]
    rw [hlenPQ, show C.length + 3 + 1 - (C.length + 3) = 1 from by omega]
    exact getC_cons3_one _ _ _ _
  have hq2 : getC md ((C.length + 3 + 2 : Nat) : Int) = some tickChar := by
    rw [hshapeQ, getC_append_right_ge _ _ _ (by rw [hlenPQ]; omega)]
    rw [hlenPQ, show C.length + 3 + 2 - (C.length + 3) = 2 from by omega]
    exact getC_cons3_two _ _ _ _
  have hallW : ∀ j, C.length + 6 ≤ j → j < (C.length + 6) + W.length →
      footerAllowedOpt (getC md (j : Int)) = true := by
    intro j hj1 hj2
    have hg : getC md (j : Int) = getC W ((j - (C.length + 6) : Nat) : Int) := by
      rw [hshapeW, getC_append_right_ge _ _ _ (by rw [hlenPW]; omega), hlenPW]
    obtain ⟨c, hc, hcm⟩ := getC_in_range (show j - (C.length + 6) < W.length from by omega)
    rw [hg, hc]
    exact footerAllowed_of_w (hW c hcm)
  have hticksW : ticksIn md (C.length + 6) ((C.length + 6) + W.length) = 0 := by
    apply ticksIn_eq_zero
    intro j hj1 hj2
    have hg : getC md (j : Int) = getC W ((j - (C.length + 6) : Nat) : Int) := by
      rw [hshapeW, getC_append_right_ge _ _ _ (by rw [hlenPW]; omega), hlenPW]
    obtain ⟨c, hc, hcm⟩ := getC_in_range (show j - (C.length + 6) < W.length from by omega)
    rw [hg, hc]
    exact w_not_tick (hW c hcm)
  have hnofence : ∀ j, 3 ≤ j → j < 3 + C.length → openFencePat md j = false := by
    intro j hj1 hj2
    have hg : getC md (j : Int) = getC C ((j - 3 : Nat) : Int) := by
      rw [hmd, getC_append_right_ge _ _ _ (by simp; omega)]
      rw [show ([tickChar, tickChar, tickChar] : List Char).length = 3 from rfl]
      rw [getC_append_left_lt _ _ _ (by omega)]
    obtain ⟨c, hc, hcm⟩ := getC_in_range (show j - 3 < C.length from by omega)
    unfold openFencePat
    rw [hg, hc]
    have hcne : (some c == some tickChar) = false := by
      simp
      exact hC c hcm
    rw [hcne]
    rfl
  have hm0 : getC md ((0 : Nat) : Int) = some tickChar := by
    rw [hmd]
    exact getC_cons_zero _ _
  have hm1 : getC md ((1 : Nat) : Int) = some tickChar := by
    rw [hmd]
    exact getC_cons3_one _ _ _ _
  have hm2 : getC md ((2 : Nat) : Int) = some tickChar := by
    rw [hmd]
    exact getC_cons3_two _ _ _ _
  have hp2 : openFencePat md 2 = false := by
    unfold openFencePat
    rw [show ((2 : Nat) : Int) - 1 = ((1 : Nat) : Int) from by norm_num]
    rw [show ((2 : Nat) : Int) - 2 = ((0 : Nat) : Int) from by norm_num]
    rw [show ((2 : Nat) : Int) - 3 = -1 from by norm_num]
    rw [hm2, hm1, hm0, getC_neg_one]
    rfl
  have hp1 : openFencePat md 1 = false := by
    unfold openFencePat
    rw [show ((1 : Nat) : Int) - 2 = -1 from by norm_num]
    rw [getC_neg_one]
    simp [lineBoundaryOpt]
  have hp0 : openFencePat md 0 = false := by
    unfold openFencePat
    rw [show ((0 : Nat) : Int) - 1 = -1 from by norm_num]
    rw [getC_neg_one]
    simp [lineBoundaryOpt]
  unfold extractSettingsFooter
  rw [show md.length = ((C.length + 3) + 3) + W.length from by omega]
  rw [footerLoop_skip_pre md W.length ((C.length + 3) + 3) 0 (-1)
    (fun j h1 h2 => hallW j (by omega) (by omega))
    (by
      rw [show (C.length + 3) + 3 = C.length + 6 from by omega]
      rw [hticksW]
      omega)]
  rw [show (C.length + 3) + 3 = C.length + 6 from by omega]
  rw [hticksW]
  rw [show C.length + 6 = (C.length + 3) + 3 from by omega]
  rw [footerLoop_enter md (C.length + 3) (-1) hq0 hq1 hq2]
  rw [show C.length + 3 = 3 + C.length from by omega]
  rw [footerLoop_skip_entered md C.length 3 3 _ (fun j h1 h2 => hnofence j h1 h2)]
  simp only [footerLoop, Bool.not_true, Bool.false_and, Bool.false_eq_true, if_false,
    hp2, hp1, hp0]

/-! ## C2 — footer scan: the tolerated character set is not "whitespace" -/

/-- C2 counterexample: the claim says the backward scan tolerates whitespace
before the closing fence, but a single trailing space after a well-formed
footer makes the scan return the empty result (first conjunct), while the
same document without the trailing space parses (second conjunct, which also
exhibits the off-by-one: of the fenced content `\n42\n` only `\n42` is kept,
the character just before the closing fence being dropped). -/
theorem c2_footer_scan_counterexample :
    extractSettingsFooter ((("a\n").toList ++ [tickChar, tickChar, tickChar])
        ++ ((("\n42\n").toList ++ [tickChar, tickChar, tickChar]) ++ ([' ']))) = .empty ∧
    extractSettingsFooter ((("a\n").toList ++ [tickChar, tickChar, tickChar])
        ++ (("\n42\n").toList ++ [tickChar, tickChar, tickChar]))
      = .parsed (("\n42").toList) := by
  constructor
  · rfl
  · rfl

/-- C2 amended: scanning right to left, `extractSettingsFooter` tolerates
exactly backtick, `%`, LF and CR before three backticks (not necessarily
consecutive) have been counted — any other character there, including space
and tab, aborts with the empty result (first conjunct); with a well-formed
footer (an opening 3-backtick fence preceded by a line boundary, a
backtick-free body, a closing 3-backtick fence and tolerated trailing
characters) it hands to `JSON.parse` the fenced body minus its final
character, not the full text strictly between the fences (second conjunct);
and when the opening fence sits at the very start of the document (no line
boundary before it) it falls through and returns `undefined` — an empty
footer, not a parsed value (third conjunct). -/
theorem c2_footer_scan_amended :
    (∀ (md : List Char) (i : Nat),
      i < md.length →
      footerAllowedOpt (getC md (i : Int)) = false →
      (∀ j, i < j → j < md.length → footerAllowedOpt (getC md (j : Int)) = true) →
      ticksIn md (i + 1) md.length < 3 →
      extractSettingsFooter md = .empty) ∧
    (∀ (A C W : List Char) (nl : Char) (md : List Char),
      md = A ++ nl :: ([tickChar, tickChar, tickChar]
        ++ (C ++ ([tickChar, tickChar, tickChar] ++ W))) →
      (nl = '\n' ∨ nl = '\r') →
      (∀ c ∈ C, c ≠ tickChar) →
      (∀ c ∈ W, c = '%' ∨ c = '\n' ∨ c = '\r') →
      extractSettingsFooter md = .parsed C.dropLast) ∧
    (∀ (C W : List Char) (md : List Char),
      md = [tickChar, tickChar, tickChar] ++ (C ++ ([tickChar, tickChar, tickChar] ++ W)) →
      (∀ c ∈ C, c ≠ tickChar) →
      (∀ c ∈ W, c = '%' ∨ c = '\n' ∨ c = '\r') →
      extractSettingsFooter md = .undef) :=
  ⟨fun md i h1 h2 h3 h4 => extractSettingsFooter_abort h1 h2 h3 h4,
   fun A C W nl md h1 h2 h3 h4 => extractSettingsFooter_parses A C W nl h1 h2 h3 h4,
   fun C W md h1 h2 h3 => extractSettingsFooter_open_at_start C W h1 h2 h3⟩

/-- Closed instance of `c2_footer_scan_amended`: a document whose last
character aborts the scan, a well-formed footer whose body loses its final
character, and a document whose opening fence starts the document. -/
theorem c2_footer_scan_amended_witness :
    extractSettingsFooter (['a']) = .empty ∧
    extractSettingsFooter (('a' :: '\n' :: ([tickChar, tickChar, tickChar]
        ++ ((("\n42\n").toList) ++ ([tickChar, tickChar, tickChar] ++ ([] : List Char))))))
      = .parsed (['\n', '4', '2']) ∧
    extractSettingsFooter ([tickChar, tickChar, tickChar]
        ++ ((['x']) ++ ([tickChar, tickChar, tickChar] ++ ([] : List Char)))) = .undef := by
  refine ⟨?_, ?_, ?_⟩
  · exact c2_footer_scan_amended.1 (['a']) 0 (by decide) (by decide)
      (by
        intro j hj1 hj2
        simp only [List.length_cons, List.length_nil] at hj2
        omega)
      (by decide)
  · exact (c2_footer_scan_amended.2.1 (['a']) (("\n42\n").toList) ([]) '\n' _ rfl
      (Or.inl rfl) (by decide) (by decide)).trans rfl
  · exact c2_footer_scan_amended.2.2 (['x']) ([]) _ rfl (by decide) (by decide)
